import Mathlib

set_option maxHeartbeats 1000000

/-!
Shallow embedding of `src/core/relational.py` — the `RelationalEngine`
(multi-table relational integrity engine): table catalog, relationship set,
Kahn topological sort (`build_dag`), per-table row generation with FK pools
(`_generate_table`), and the orchestrator (`generate_all`).

Randomness (the `faker` calls) is embedded as an explicit random tape
`fake : Nat -> Nat` together with a counter that advances by one on every
faker call.  `faker.random_element(pool)` is embedded as indexing the pool
by the next tape value modulo the pool length, which captures exactly its
contract of returning a member of a non-empty pool.
-/

/-- A scalar produced by the faker-backed value synthesizer
(`RelationalEngine._generate_value`).  The `Nat` payload records which draw
of the random tape produced it (for `vInt` the draw reduced mod 10001,
mirroring `random_int(0, 10000)`). -/
inductive Value where
  | vInt : Nat → Value
  | vFloat : Nat → Value
  | vDate : Nat → Value
  | vWord : Nat → Value
deriving DecidableEq, Repr

/-- Python `dict` assignment `m[k] = v`: update in place if the key exists
(keeping its position), otherwise append the new key at the end —
insertion-order semantics of CPython dicts. -/
def dictSet {κ α : Type} [DecidableEq κ] (m : List (κ × α)) (k : κ) (v : α) :
    List (κ × α) :=
  match m with
  | [] => [(k, v)]
  | (k', v') :: rest => if k' = k then (k', v) :: rest else (k', v') :: dictSet rest k v

/-- Python `m.get(k)` / `k in m`: first (and for nodup keys, only) binding. -/
def dictGet? {κ α : Type} [DecidableEq κ] (m : List (κ × α)) (k : κ) : Option α :=
  match m with
  | [] => none
  | (k', v') :: rest => if k' = k then some v' else dictGet? rest k

/-- Python `m.get(k, d)`. -/
def dictGetD {κ α : Type} [DecidableEq κ] (m : List (κ × α)) (k : κ) (d : α) : α :=
  (dictGet? m k).getD d

/-- The keys of a dict, in insertion order. -/
def dictKeys {κ α : Type} (m : List (κ × α)) : List κ := m.map Prod.fst

/-- One declared foreign-key relationship
`(parent_table, parent_col, child_table, child_col)`. -/
structure FkRel where
  parent : String
  pcol : String
  child : String
  ccol : String
deriving DecidableEq, Repr

/-- A table schema: ordered mapping column name → dtype string (Python dict). -/
abbrev Schema := List (String × String)

/-- A generated row: ordered mapping column name → value (Python dict). -/
abbrev Row := List (String × Value)

/-- A generated table, as `pl.DataFrame(data)` built from a list of row
dicts: we keep the row list; the frame's columns are read off the first row
(polars infers the columns of a from-dicts frame from the rows, so an empty
list yields a frame with no columns). -/
abbrev DF := List Row

/-- The FK pools: dict mapping `(table, column)` → list of valid FK values. -/
abbrev Pools := List ((String × String) × List Value)

/-- The engine state: `self.tables` (dict name → schema) and
`self.relationships` (list of 4-tuples), as set up in `__init__`. -/
structure RelationalEngine where
  tables : List (String × Schema)
  relationships : List FkRel
deriving DecidableEq, Repr

/-- Constructor `RelationalEngine()` — empty catalog and relationship list. -/
def RelationalEngine.empty : RelationalEngine := ⟨[], []⟩

/-- Method `add_table(name, schema)`: `self.tables[name] = schema`. -/
def RelationalEngine.addTable (e : RelationalEngine) (name : String)
    (schema : Schema) : RelationalEngine :=
  ⟨dictSet e.tables name schema, e.relationships⟩

/-- Method `add_relationship(parent_table, parent_col, child_table, child_col)`:
appends the 4-tuple to `self.relationships`. -/
def RelationalEngine.addRelationship (e : RelationalEngine)
    (p pc c cc : String) : RelationalEngine :=
  ⟨e.tables, e.relationships ++ [⟨p, pc, c, cc⟩]⟩

/-- The adjacency list `graph[n]` of `build_dag`: children of `n`, appended
in relationship declaration order. -/
def relChildren (rels : List FkRel) (n : String) : List String :=
  (rels.filter (fun r => decide (r.parent = n))).map FkRel.child

/-- The initial `in_degree` dict of `build_dag`: every registered table
starts at 0 (catalog order), then each relationship bumps its child via
`in_degree[child] = in_degree.get(child, 0) + 1` (unregistered children are
thereby appended as new keys). Degrees are `Int` like Python ints. -/
def initInDegree (tables : List (String × Schema)) (rels : List FkRel) :
    List (String × Int) :=
  rels.foldl (fun d r => dictSet d r.child (dictGetD d r.child 0 + 1))
    (tables.map (fun t => (t.1, (0 : Int))))

/-- The body of `build_dag`'s inner `for child in graph[node]` loop:
decrement each child's in-degree in turn and enqueue it at the tail the
moment its degree reads exactly 0. -/
def processChildren (cs : List String) (d : List (String × Int))
    (q : List String) : List (String × Int) × List String :=
  match cs with
  | [] => (d, q)
  | c :: rest =>
      let d' := dictSet d c (dictGetD d c 0 - 1)
      let q' := if dictGetD d' c 0 = 0 then q ++ [c] else q
      processChildren rest d' q'

/-- The `while queue:` loop of `build_dag` (Kahn's algorithm), with explicit
fuel.  The fuel used by `buildDag` is the number of in-degree keys, which
(as proved below in `kahnLoop_fuel_stable`) is enough for the queue to empty
first, so the fueled loop coincides with Python's unbounded loop. -/
def kahnLoop (rels : List FkRel) : Nat → List String → List (String × Int) →
    List String → List String
  | _, [], _, order => order
  | 0, _ :: _, _, order => order
  | fuel + 1, n :: q, d, order =>
      let s := processChildren (relChildren rels n) d q
      kahnLoop rels fuel s.2 s.1 (order ++ [n])

/-- The full Kahn run of `build_dag`: seed the FIFO queue with the zero
in-degree keys (in `in_degree` insertion order) and run the loop.  The fuel
`d0.length` bounds the number of pops, since every queue element is a key
of `in_degree` and no key is ever enqueued twice. -/
def kahnRun (e : RelationalEngine) : List String :=
  let d0 := initInDegree e.tables e.relationships
  kahnLoop e.relationships d0.length
    ((d0.filter (fun p => decide (p.2 = 0))).map Prod.fst) d0 []

/-- Method `build_dag()`: topological sort; on success the order, on failure
(`len(order) != len(self.tables)`) the `ValueError` carrying
`set(self.tables.keys()) - set(order)` (kept in catalog order). -/
def buildDag (e : RelationalEngine) : Except (List String) (List String) :=
  if (kahnRun e).length = e.tables.length then .ok (kahnRun e)
  else .error ((e.tables.map Prod.fst).filter (fun t => decide (¬ t ∈ kahnRun e)))

/-- Substring test, embedding Python's `"Int" in dtype`. -/
def containsSub (needle hay : String) : Bool :=
  decide (needle.toList <:+: hay.toList)

/-- Method `_generate_value(dtype)`: one faker draw, dispatched on the dtype
string exactly as the chain of substring tests does. -/
def generateValue (fake : Nat → Nat) (ctr : Nat) (dtype : String) : Value :=
  if containsSub "Int" dtype then .vInt (fake ctr % 10001)
  else if containsSub "Float" dtype then .vFloat (fake ctr)
  else if containsSub "Date" dtype then .vDate (fake ctr)
  else .vWord (fake ctr)

/-- The `fk_sources` dict of `_generate_table`: for each relationship whose
child is this table, `fk_sources[ccol] = (parent, pcol)` — built in
declaration order, so a later relationship on the same child column
overwrites an earlier one. -/
def fkSources (rels : List FkRel) (t : String) :
    List (String × (String × String)) :=
  rels.foldl
    (fun m r => if r.child = t then dictSet m r.ccol (r.parent, r.pcol) else m) []

/-- One cell of a generated row: FK columns draw from the parent pool when
it is non-empty (`faker.random_element`, embedded as tape-indexed selection)
and otherwise fall back to `_generate_value`; non-FK columns always use
`_generate_value`.  Every branch consumes exactly one tape draw. -/
def genCell (rels : List FkRel) (t : String) (pools : Pools)
    (fake : Nat → Nat) (ctr : Nat) (col dtype : String) : Value :=
  match dictGet? (fkSources rels t) col with
  | some pp =>
      let pool := dictGetD pools pp []
      if pool.length ≠ 0 then pool.getD (fake ctr % pool.length) (.vWord 0)
      else generateValue fake ctr dtype
  | none => generateValue fake ctr dtype

/-- One row of `_generate_table`: iterate the schema in order, producing one
cell per column; returns the row and the advanced tape counter. -/
def genRow (rels : List FkRel) (t : String) (pools : Pools)
    (fake : Nat → Nat) : Nat → Schema → Row × Nat
  | ctr, [] => ([], ctr)
  | ctr, (col, dtype) :: rest =>
      let v := genCell rels t pools fake ctr col dtype
      let s := genRow rels t pools fake (ctr + 1) rest
      ((col, v) :: s.1, s.2)

/-- Method `_generate_table(table_name, schema, count, fk_pools)`: `count` rows,
threading the tape counter. -/
def genTable (rels : List FkRel) (t : String) (schema : Schema)
    (pools : Pools) (fake : Nat → Nat) : Nat → Nat → DF × Nat
  | 0, ctr => ([], ctr)
  | k + 1, ctr =>
      let s := genRow rels t pools fake ctr schema
      let s' := genTable rels t schema pools fake k s.2
      (s.1 :: s'.1, s'.2)

/-- The columns of a from-dicts polars frame: read off the first row; an
empty frame has no columns. -/
def dfColumns (df : DF) : List String :=
  match df with
  | [] => []
  | r :: _ => r.map Prod.fst

/-- Column extraction `df[pcol].to_list()`: the column's values, row by row. -/
def colValues (df : DF) (pcol : String) : List Value :=
  df.filterMap (fun row => dictGet? row pcol)

/-- Polars `Series.unique().to_list()`: the distinct values of a column.  Polars
does not fix the order of `unique`; we keep first-occurrence order, and no
theorem below depends on the order, only on membership. -/
def uniqueList (l : List Value) : List Value :=
  l.foldl (fun acc v => if v ∈ acc then acc else acc ++ [v]) []

/-- The pool-publication step of `generate_all`: for every relationship
whose parent is the just-generated table and whose parent column is present
in the frame, store `df[pcol].unique().to_list()` under `(table, pcol)`. -/
def publishPools (rels : List FkRel) (t : String) (df : DF) (pools : Pools) :
    Pools :=
  rels.foldl
    (fun ps r =>
      if r.parent = t ∧ r.pcol ∈ dfColumns df
      then dictSet ps (t, r.pcol) (uniqueList (colValues df r.pcol))
      else ps)
    pools

/-- How `generate_all` can fail: the cycle `ValueError` raised by
`build_dag` (carrying the unplaced tables), or the `KeyError` from
`self.tables[table_name]` when the order contains an unregistered table. -/
inductive GenError where
  | cyclic : List String → GenError
  | missingTable : String → GenError
deriving DecidableEq, Repr

/-- The generation loop of `generate_all`: walk the order, look up each
schema, generate with the pools accumulated so far, record the frame, then
publish this table's pools. -/
def generateAllLoop (rels : List FkRel) (tables : List (String × Schema))
    (counts : List (String × Nat)) (fake : Nat → Nat) :
    List String → Pools → List (String × DF) → Nat →
    Except GenError (List (String × DF))
  | [], _, results, _ => .ok results
  | t :: rest, pools, results, ctr =>
      match dictGet? tables t with
      | none => .error (.missingTable t)
      | some schema =>
          let count := dictGetD counts t 100
          let s := genTable rels t schema pools fake count ctr
          generateAllLoop rels tables counts fake rest
            (publishPools rels t s.1 pools) (results ++ [(t, s.1)]) s.2

/-- Method `generate_all(counts)`: resolve the order (propagating the cycle error),
then run the generation loop with empty pools; a missing row count defaults
to 100. -/
def generateAll (e : RelationalEngine) (counts : List (String × Nat))
    (fake : Nat → Nat) : Except GenError (List (String × DF)) :=
  match buildDag e with
  | .error rem => .error (.cyclic rem)
  | .ok order => generateAllLoop e.relationships e.tables counts fake order [] [] 0

/-! ### Specification helpers and concrete engines used in claim statements -/

/-- The schema of the last `add_table` call with a given name in a call
sequence, if any (specification helper for C9). -/
def lastVal? (calls : List (String × Schema)) (n : String) : Option Schema :=
  match calls with
  | [] => none
  | c :: rest =>
      match lastVal? rest n with
      | some s => some s
      | none => if c.1 = n then some c.2 else none

/-- Folding a sequence of `add_table` calls over an engine. -/
def applyTables (e : RelationalEngine) (calls : List (String × Schema)) :
    RelationalEngine :=
  calls.foldl (fun a c => a.addTable c.1 c.2) e

/-- The last relationship declared for a given (child table, child column)
pair, if any (specification helper for C10). -/
def lastDecl? (rels : List FkRel) (t cc : String) : Option FkRel :=
  match rels with
  | [] => none
  | r :: rest =>
      match lastDecl? rest t cc with
      | some r' => some r'
      | none => if r.child = t ∧ r.ccol = cc then some r else none

/-- Engine built through the public API whose single relationship names a
parent column `"zz"` that does not exist in table `a`'s schema. -/
def c5Engine : RelationalEngine :=
  ((RelationalEngine.empty.addTable "a" [("x", "Int64")]).addTable "b"
    [("y", "Int64")]).addRelationship "a" "zz" "b" "y"

/-- Engine with registered tables `A`, `D`; one relationship points at an
unregistered child `B`, and `D` carries a self-loop. -/
def c2Engine : RelationalEngine :=
  ⟨[("A", [("x", "Int64")]), ("D", [("x", "Int64")])],
   [⟨"A", "x", "B", "y"⟩, ⟨"D", "x", "D", "y"⟩]⟩

/-- Engine with a cycle `A -> B -> A` between registered tables, plus a
registered `C` whose two relationships point at unregistered children
`U`, `V`. -/
def c3Engine : RelationalEngine :=
  ⟨[("A", [("x", "Int64")]), ("B", [("x", "Int64")]), ("C", [("x", "Int64")])],
   [⟨"A", "x", "B", "y"⟩, ⟨"B", "x", "A", "y"⟩,
    ⟨"C", "x", "U", "y"⟩, ⟨"C", "x", "V", "y"⟩]⟩

/-- Engine with a self-loop on registered `S` and a relationship from
registered `A` to an unregistered child `B`. -/
def c7Engine : RelationalEngine :=
  ⟨[("S", [("x", "Int64")]), ("A", [("x", "Int64")])],
   [⟨"A", "x", "B", "y"⟩, ⟨"S", "x", "S", "y"⟩]⟩

/-- Occurrences of `c` in a list of table names. -/
def countS (cs : List String) (c : String) : Nat :=
  (cs.filter (fun x => decide (x = c))).length

/-- Total number of relationships whose child is `c` (the in-degree `c`
starts from once every relationship has been folded in). -/
def totalIn (rels : List FkRel) (c : String) : Nat :=
  (rels.filter (fun r => decide (r.child = c))).length

/-- Number of relationships into `c` whose parent lies in `o`. -/
def inCount (rels : List FkRel) (o : List String) (c : String) : Nat :=
  (rels.filter (fun r => decide (r.child = c) && decide (r.parent ∈ o))).length

/-- Number of relationships from `n` to `c`. -/
def edgeCnt (rels : List FkRel) (n c : String) : Nat :=
  (rels.filter (fun r => decide (r.parent = n) && decide (r.child = c))).length

/-- The invariant of `build_dag`'s Kahn loop, over the relationship list,
the key set `K` of the `in_degree` dict, the current queue, degree dict and
output order. -/
structure KahnInv (rels : List FkRel) (K : List String) (q : List String)
    (d : List (String × Int)) (o : List String) : Prop where
  nodup : (o ++ q).Nodup
  subK : ∀ x ∈ o ++ q, x ∈ K
  deg : ∀ k, dictGetD d k 0 = (totalIn rels k : Int) - (inCount rels o k : Int)
  qzero : ∀ c ∈ q, ∀ r ∈ rels, r.child = c → r.parent ∈ o
  topo : ∀ r ∈ rels, r.child ∈ o → r.parent ∈ o.take (o.indexOf r.child)

/-- A non-empty set of tables in which every member has an incoming
relationship from another member.  Every directed cycle in the relationship
graph (e.g. `A -> B -> A`, or a self-loop) yields such a set, and a finite
set with this property always contains a directed cycle, so this is the
formalisation of "the relationship set contains a cycle among these
tables". -/
abbrev StuckSet (rels : List FkRel) (xs : List String) : Prop :=
  xs ≠ [] ∧ ∀ c ∈ xs, ∃ r ∈ rels, r.parent ∈ xs ∧ r.child = c

/-! ### Basic dictionary lemmas -/

theorem dictGet?_dictSet_self {κ α : Type} [DecidableEq κ]
    (m : List (κ × α)) (k : κ) (v : α) : dictGet? (dictSet m k v) k = some v := by
  induction m with
  | nil => simp [dictSet, dictGet?]
  | cons p rest ih =>
      obtain ⟨k1, v1⟩ := p
      by_cases h : k1 = k
      · subst h
        simp [dictSet, dictGet?]
      · simp [dictSet, dictGet?, h, ih]

theorem dictGet?_dictSet_ne {κ α : Type} [DecidableEq κ]
    (m : List (κ × α)) (k k' : κ) (v : α) (h : k' ≠ k) :
    dictGet? (dictSet m k v) k' = dictGet? m k' := by
  have hne : ¬ (k = k') := fun he => h he.symm
  induction m with
  | nil => simp [dictSet, dictGet?, hne]
  | cons p rest ih =>
      obtain ⟨k1, v1⟩ := p
      by_cases hp : k1 = k
      · subst hp
        simp [dictSet, dictGet?, hne]
      · simp [dictSet, dictGet?, hp, ih]

theorem dictSet_same {κ α : Type} [DecidableEq κ]
    (m : List (κ × α)) (k : κ) (v : α) (h : dictGet? m k = some v) :
    dictSet m k v = m := by
  induction m with
  | nil => simp [dictGet?] at h
  | cons p rest ih =>
      obtain ⟨k1, v1⟩ := p
      by_cases hp : k1 = k
      · subst hp
        have h' : v1 = v := by simpa [dictGet?] using h
        subst h'
        simp [dictSet]
      · simp only [dictGet?, if_neg hp] at h
        simp [dictSet, hp, ih h]

theorem dictKeys_dictSet {κ α : Type} [DecidableEq κ]
    (m : List (κ × α)) (k : κ) (v : α) :
    dictKeys (dictSet m k v) = if k ∈ dictKeys m then dictKeys m else dictKeys m ++ [k] := by
  induction m with
  | nil => simp [dictSet, dictKeys]
  | cons p rest ih =>
      obtain ⟨k1, v1⟩ := p
      by_cases hp : k1 = k
      · subst hp
        simp [dictSet, dictKeys]
      · have hne : ¬ (k = k1) := fun he => hp he.symm
        by_cases hk : k ∈ dictKeys rest
        · simp only [dictKeys, List.map_cons] at ih hk ⊢
          simp [dictSet, hp, hk, hne, ih]
        · simp only [dictKeys, List.map_cons] at ih hk ⊢
          simp [dictSet, hp, hk, hne, ih]

theorem mem_dictKeys_of_get {κ α : Type} [DecidableEq κ]
    (m : List (κ × α)) (k : κ) (v : α) (h : dictGet? m k = some v) :
    k ∈ dictKeys m := by
  induction m with
  | nil => simp [dictGet?] at h
  | cons p rest ih =>
      obtain ⟨k1, v1⟩ := p
      by_cases hp : k1 = k
      · subst hp
        simp [dictKeys]
      · simp only [dictGet?, if_neg hp] at h
        simp only [dictKeys, List.map_cons, List.mem_cons]
        exact Or.inr (ih h)

theorem dictGet?_eq_none_of_not_mem {κ α : Type} [DecidableEq κ]
    (m : List (κ × α)) (k : κ) (h : k ∉ dictKeys m) : dictGet? m k = none := by
  induction m with
  | nil => simp [dictGet?]
  | cons p rest ih =>
      obtain ⟨k1, v1⟩ := p
      simp only [dictKeys, List.map_cons, List.mem_cons, not_or] at h
      have h1 : ¬ (k1 = k) := fun he => h.1 he.symm
      simp [dictGet?, h1, ih h.2]

theorem dictGet?_of_mem_nodup {κ α : Type} [DecidableEq κ]
    (m : List (κ × α)) (k : κ) (v : α) (hm : (k, v) ∈ m)
    (hnd : (dictKeys m).Nodup) : dictGet? m k = some v := by
  induction m with
  | nil => simp at hm
  | cons p rest ih =>
      obtain ⟨k1, v1⟩ := p
      simp only [dictKeys, List.map_cons, List.nodup_cons] at hnd
      rcases List.mem_cons.mp hm with h | h
      · rw [show k = k1 from congrArg Prod.fst h,
          show v = v1 from congrArg Prod.snd h]
        simp [dictGet?]
      · have hk : ¬ (k1 = k) := by
          intro he
          exact hnd.1 (he ▸ (List.mem_map.mpr ⟨(k, v), h, rfl⟩))
        simp [dictGet?, hk, ih h hnd.2]

/-! ### Table generator basics -/

theorem genRow_map_fst (rels : List FkRel) (t : String) (pools : Pools)
    (fake : Nat → Nat) (schema : Schema) :
    ∀ ctr, (genRow rels t pools fake ctr schema).1.map Prod.fst = schema.map Prod.fst := by
  induction schema with
  | nil => intro ctr; simp [genRow]
  | cons p rest ih =>
      intro ctr
      obtain ⟨col, dtype⟩ := p
      simp [genRow, ih]

theorem genTable_length (rels : List FkRel) (t : String) (schema : Schema)
    (pools : Pools) (fake : Nat → Nat) :
    ∀ count ctr, (genTable rels t schema pools fake count ctr).1.length = count := by
  intro count
  induction count with
  | zero => intro ctr; simp [genTable]
  | succ k ih => intro ctr; simp [genTable, ih]

theorem genTable_columns (rels : List FkRel) (t : String) (schema : Schema)
    (pools : Pools) (fake : Nat → Nat) (count ctr : Nat) (h : 1 ≤ count) :
    dfColumns (genTable rels t schema pools fake count ctr).1 = schema.map Prod.fst := by
  match count, h with
  | k + 1, _ =>
      simp [genTable, dfColumns, genRow_map_fst]

/-! ### C4 — Table Generator row count and columns -/

/-- C4 counterexample: with `count == 0`, `_generate_table` returns
`pl.DataFrame([])`, which carries no columns at all, contradicting the
claim that the empty result still has the schema's column set. -/
theorem c4_cex_zero_count_drops_columns :
    (genTable [] "t" [("x", "Int64")] [] (fun n => n) 0 0).1.length = 0 ∧
    dfColumns (genTable [] "t" [("x", "Int64")] [] (fun n => n) 0 0).1 ≠ ["x"] := by
  exact ⟨rfl, by decide⟩

/-- C4 (amended): `_generate_table` returns exactly `count` records; for
`count ≥ 1` the column list equals the schema's columns in schema order;
`count == 0` yields an empty frame (no error), but that frame has no
columns. -/
theorem c4_generator_count_and_columns (rels : List FkRel) (t : String)
    (schema : Schema) (pools : Pools) (fake : Nat → Nat) (count ctr : Nat) :
    (genTable rels t schema pools fake count ctr).1.length = count ∧
    (1 ≤ count →
      dfColumns (genTable rels t schema pools fake count ctr).1 = schema.map Prod.fst) ∧
    (count = 0 → (genTable rels t schema pools fake count ctr).1 = []) := by
  refine ⟨genTable_length rels t schema pools fake count ctr,
    fun h => genTable_columns rels t schema pools fake count ctr h, fun h => ?_⟩
  subst h
  rfl

/-- Witness for C4's amended theorem at a concrete schema and count. -/
theorem c4_generator_count_and_columns_witness :
    (genTable [] "t" [("a", "Int64")] [] (fun n => n) 2 0).1.length = 2 ∧
    (1 ≤ 2 →
      dfColumns (genTable [] "t" [("a", "Int64")] [] (fun n => n) 2 0).1 =
        [("a", "Int64")].map Prod.fst) ∧
    (2 = 0 → (genTable [] "t" [("a", "Int64")] [] (fun n => n) 2 0).1 = []) :=
  c4_generator_count_and_columns [] "t" [("a", "Int64")] [] (fun n => n) 2 0

/-! ### C9 — add_table overwrites silently -/





theorem applyTables_relationships (calls : List (String × Schema)) :
    ∀ e : RelationalEngine, (applyTables e calls).relationships = e.relationships := by
  induction calls with
  | nil => intro e; rfl
  | cons c rest ih =>
      intro e
      simpa [applyTables, List.foldl_cons] using ih (e.addTable c.1 c.2)

theorem applyTables_lookup (calls : List (String × Schema)) :
    ∀ (e : RelationalEngine) (n : String),
      dictGet? (applyTables e calls).tables n =
        (match lastVal? calls n with
         | some s0 => some s0
         | none => dictGet? e.tables n) := by
  induction calls with
  | nil => intro e n; rfl
  | cons c rest ih =>
      intro e n
      have hfold : applyTables e (c :: rest) = applyTables (e.addTable c.1 c.2) rest := rfl
      rw [hfold, ih]
      rcases h2 : lastVal? rest n with _ | s0
      · by_cases hc : c.1 = n
        · subst hc
          simp [lastVal?, h2, RelationalEngine.addTable,
            dictGet?_dictSet_self e.tables c.1 c.2]
        · simp [lastVal?, h2, hc, RelationalEngine.addTable,
            dictGet?_dictSet_ne e.tables c.1 n c.2 (fun he => hc he.symm)]
      · simp [lastVal?, h2]

/-- C9: `add_table` with an already-registered name raises no error and
silently overwrites the stored schema, leaving the relationship list and
all other tables untouched; over any call sequence, the catalog maps each
name to the schema of the last call with that name (or its prior value if
the sequence never wrote it). -/
theorem c9_addTable_last_write_wins (e : RelationalEngine)
    (calls : List (String × Schema)) (n m : String) (s : Schema) (hm : m ≠ n) :
    (applyTables e calls).relationships = e.relationships ∧
    dictGet? (applyTables e calls).tables n =
      (match lastVal? calls n with
       | some s0 => some s0
       | none => dictGet? e.tables n) ∧
    (RelationalEngine.addTable e n s).relationships = e.relationships ∧
    dictGet? (RelationalEngine.addTable e n s).tables n = some s ∧
    dictGet? (RelationalEngine.addTable e n s).tables m = dictGet? e.tables m :=
  ⟨applyTables_relationships calls e, applyTables_lookup calls e n, rfl,
    dictGet?_dictSet_self e.tables n s,
    dictGet?_dictSet_ne e.tables n m s hm⟩

/-- Witness for C9 at a concrete overwrite sequence. -/
theorem c9_addTable_last_write_wins_witness :
    (applyTables RelationalEngine.empty
        [("u", [("a", "Int64")]), ("u", [("b", "Int64")])]).relationships =
      RelationalEngine.empty.relationships ∧
    dictGet? (applyTables RelationalEngine.empty
        [("u", [("a", "Int64")]), ("u", [("b", "Int64")])]).tables "u" =
      (match lastVal? [("u", [("a", "Int64")]), ("u", [("b", "Int64")])] "u" with
       | some s0 => some s0
       | none => dictGet? RelationalEngine.empty.tables "u") ∧
    (RelationalEngine.addTable RelationalEngine.empty "u" [("c", "Int64")]).relationships =
      RelationalEngine.empty.relationships ∧
    dictGet? (RelationalEngine.addTable RelationalEngine.empty "u"
        [("c", "Int64")]).tables "u" = some [("c", "Int64")] ∧
    dictGet? (RelationalEngine.addTable RelationalEngine.empty "u"
        [("c", "Int64")]).tables "w" = dictGet? RelationalEngine.empty.tables "w" :=
  c9_addTable_last_write_wins RelationalEngine.empty
    [("u", [("a", "Int64")]), ("u", [("b", "Int64")])] "u" "w" [("c", "Int64")]
    (by decide)

/-! ### FK sampling lemmas -/

theorem getD_mod_mem (l : List Value) (n : Nat) (d : Value) (h : l ≠ []) :
    l.getD (n % l.length) d ∈ l := by
  have hlen : 0 < l.length := List.length_pos.mpr h
  have hlt : n % l.length < l.length := Nat.mod_lt _ hlen
  rw [List.getD_eq_getElem?_getD, List.getElem?_eq_getElem hlt]
  simp

theorem genCell_fk_mem (rels : List FkRel) (t : String) (pools : Pools)
    (fake : Nat → Nat) (ctr : Nat) (col dtype : String)
    (src : String × String) (pool : List Value)
    (hsrc : dictGet? (fkSources rels t) col = some src)
    (hpool : dictGet? pools src = some pool) (hne : pool ≠ []) :
    genCell rels t pools fake ctr col dtype ∈ pool := by
  have hlen : pool.length ≠ 0 := by
    simpa [List.length_eq_zero] using hne
  simp only [genCell, hsrc, dictGetD, hpool, Option.getD_some, if_pos hlen]
  exact getD_mod_mem pool (fake ctr) (.vWord 0) hne

theorem genRow_fk_mem (rels : List FkRel) (t : String) (pools : Pools)
    (fake : Nat → Nat) (col : String) (src : String × String) (pool : List Value)
    (hsrc : dictGet? (fkSources rels t) col = some src)
    (hpool : dictGet? pools src = some pool) (hne : pool ≠ []) :
    ∀ (schema : Schema) (ctr : Nat) (v : Value),
      dictGet? (genRow rels t pools fake ctr schema).1 col = some v → v ∈ pool := by
  intro schema
  induction schema with
  | nil => intro ctr v h; simp [genRow, dictGet?] at h
  | cons p rest ih =>
      intro ctr v h
      obtain ⟨c0, dt0⟩ := p
      by_cases hc : c0 = col
      · subst hc
        have h' : genCell rels t pools fake ctr c0 dt0 = v := by
          simpa [genRow, dictGet?] using h
        subst h'
        exact genCell_fk_mem rels t pools fake ctr c0 dt0 src pool hsrc hpool hne
      · simp only [genRow, dictGet?, if_neg hc] at h
        exact ih (ctr + 1) v h

theorem genTable_fk_mem (rels : List FkRel) (t : String) (schema : Schema)
    (pools : Pools) (fake : Nat → Nat) (col : String)
    (src : String × String) (pool : List Value)
    (hsrc : dictGet? (fkSources rels t) col = some src)
    (hpool : dictGet? pools src = some pool) (hne : pool ≠ []) :
    ∀ (count ctr : Nat) (row : Row),
      row ∈ (genTable rels t schema pools fake count ctr).1 →
      ∀ v : Value, dictGet? row col = some v → v ∈ pool := by
  intro count
  induction count with
  | zero => intro ctr row hrow; simp [genTable] at hrow
  | succ k ih =>
      intro ctr row hrow v hv
      simp only [genTable, List.mem_cons] at hrow
      rcases hrow with h | h
      · subst h
        exact genRow_fk_mem rels t pools fake col src pool hsrc hpool hne
          schema ctr v hv
      · exact ih _ row h v hv

/-! ### C10 — last-declared relationship per child column wins -/



theorem fkSources_fold_lookup (t cc : String) :
    ∀ (rels : List FkRel) (m0 : List (String × (String × String))),
      dictGet?
        (rels.foldl
          (fun m r => if r.child = t then dictSet m r.ccol (r.parent, r.pcol) else m) m0) cc =
      (match lastDecl? rels t cc with
       | some r => some (r.parent, r.pcol)
       | none => dictGet? m0 cc) := by
  intro rels
  induction rels with
  | nil => intro m0; rfl
  | cons r rest ih =>
      intro m0
      rw [List.foldl_cons, ih]
      rcases h2 : lastDecl? rest t cc with _ | r'
      · by_cases hc : r.child = t
        · by_cases hcc : r.ccol = cc
          · simp [lastDecl?, h2, hc, hcc, dictGet?_dictSet_self]
          · simp [lastDecl?, h2, hc, hcc,
              dictGet?_dictSet_ne m0 r.ccol cc (r.parent, r.pcol)
                (fun he => hcc he.symm)]
        · simp [lastDecl?, h2, hc]
      · simp [lastDecl?, h2]

theorem fkSources_lookup (rels : List FkRel) (t cc : String) :
    dictGet? (fkSources rels t) cc =
      (lastDecl? rels t cc).map (fun r => (r.parent, r.pcol)) := by
  rw [fkSources, fkSources_fold_lookup t cc rels []]
  rcases lastDecl? rels t cc with _ | r <;> rfl

theorem genCell_congr (rels rels' : List FkRel) (t : String)
    (h : ∀ col, dictGet? (fkSources rels t) col = dictGet? (fkSources rels' t) col)
    (pools : Pools) (fake : Nat → Nat) (ctr : Nat) (col dtype : String) :
    genCell rels t pools fake ctr col dtype = genCell rels' t pools fake ctr col dtype := by
  simp only [genCell, h col]

theorem genRow_congr (rels rels' : List FkRel) (t : String)
    (h : ∀ col, dictGet? (fkSources rels t) col = dictGet? (fkSources rels' t) col)
    (pools : Pools) (fake : Nat → Nat) :
    ∀ (schema : Schema) (ctr : Nat),
      genRow rels t pools fake ctr schema = genRow rels' t pools fake ctr schema := by
  intro schema
  induction schema with
  | nil => intro ctr; rfl
  | cons p rest ih =>
      intro ctr
      obtain ⟨c0, dt0⟩ := p
      simp [genRow, ih, genCell_congr rels rels' t h pools fake ctr c0 dt0]

theorem genTable_congr (rels rels' : List FkRel) (t : String)
    (h : ∀ col, dictGet? (fkSources rels t) col = dictGet? (fkSources rels' t) col)
    (schema : Schema) (pools : Pools) (fake : Nat → Nat) :
    ∀ (count ctr : Nat),
      genTable rels t schema pools fake count ctr = genTable rels' t schema pools fake count ctr := by
  intro count
  induction count with
  | zero => intro ctr; rfl
  | succ k ih =>
      intro ctr
      simp [genTable, genRow_congr rels rels' t h pools fake schema ctr, ih]

theorem lastDecl?_append_right (t cc : String) (l1 l2 : List FkRel)
    (h : lastDecl? l2 t cc ≠ none) :
    lastDecl? (l1 ++ l2) t cc = lastDecl? l2 t cc := by
  induction l1 with
  | nil => rfl
  | cons r rest ih =>
      rcases h2 : lastDecl? l2 t cc with _ | r'
      · exact absurd h2 h
      · simp only [List.cons_append, lastDecl?, List.append_eq, ih, h2]

theorem lastDecl?_mem_of_match (t cc : String) :
    ∀ (l : List FkRel) (r : FkRel), r ∈ l → r.child = t → r.ccol = cc →
      lastDecl? l t cc ≠ none := by
  intro l
  induction l with
  | nil => intro r hr; simp at hr
  | cons r0 rest ih =>
      intro r hr hc hcc
      rcases List.mem_cons.mp hr with h | h
      · subst h
        rcases h2 : lastDecl? rest t cc with _ | r'
        · simp [lastDecl?, h2, hc, hcc]
        · simp [lastDecl?, h2]
      · rcases h2 : lastDecl? rest t cc with _ | r'
        · exact absurd h2 (ih r h hc hcc)
        · simp [lastDecl?, h2]

theorem lastDecl?_append (t cc : String) :
    ∀ l1 l2 : List FkRel,
      lastDecl? (l1 ++ l2) t cc =
        (match lastDecl? l2 t cc with
         | some r => some r
         | none => lastDecl? l1 t cc) := by
  intro l1
  induction l1 with
  | nil =>
      intro l2
      rcases h : lastDecl? l2 t cc with _ | r <;> simp [lastDecl?, h]
  | cons r0 rest ih =>
      intro l2
      simp only [List.cons_append, lastDecl?, List.append_eq, ih l2]
      rcases h : lastDecl? l2 t cc with _ | r' <;>
        rcases h3 : lastDecl? rest t cc with _ | r'' <;> simp [lastDecl?, h, h3]

/-- C10: when the same child column of a table is the child side of several
relationships, the `fk_sources` dict keeps only the last-declared one, so
dropping an earlier duplicate changes neither any FK-source lookup nor the
generated table, and the column's effective source is the last declaration's
`(parent_table, parent_col)`. -/
theorem c10_last_relationship_wins (rels l1 l2 : List FkRel) (r1 : FkRel)
    (hsplit : rels = l1 ++ r1 :: l2)
    (hdup : ∃ r2 ∈ l2, r2.child = r1.child ∧ r2.ccol = r1.ccol) :
    (∀ col, dictGet? (fkSources rels r1.child) col =
      dictGet? (fkSources (l1 ++ l2) r1.child) col) ∧
    (∀ (schema : Schema) (pools : Pools) (fake : Nat → Nat) (count ctr : Nat),
      genTable rels r1.child schema pools fake count ctr =
        genTable (l1 ++ l2) r1.child schema pools fake count ctr) ∧
    dictGet? (fkSources rels r1.child) r1.ccol =
      (lastDecl? rels r1.child r1.ccol).map (fun r => (r.parent, r.pcol)) := by
  have hlast : ∀ col, lastDecl? (l1 ++ r1 :: l2) r1.child col =
      lastDecl? (l1 ++ l2) r1.child col := by
    intro col
    rw [lastDecl?_append, lastDecl?_append]
    rcases h2 : lastDecl? l2 r1.child col with _ | r'
    · have hcol : ¬ (r1.ccol = col) := by
        intro he
        obtain ⟨r2, hr2, hc2, hcc2⟩ := hdup
        exact (lastDecl?_mem_of_match r1.child col l2 r2 hr2 hc2 (hcc2.trans he)) h2
      simp [lastDecl?, h2, hcol]
    · simp [lastDecl?, h2]
  have hcols : ∀ col, dictGet? (fkSources rels r1.child) col =
      dictGet? (fkSources (l1 ++ l2) r1.child) col := by
    intro col
    rw [fkSources_lookup, fkSources_lookup, hsplit, hlast col]
  exact ⟨hcols,
    fun schema pools fake count ctr =>
      genTable_congr rels (l1 ++ l2) r1.child hcols schema pools fake count ctr,
    fkSources_lookup rels r1.child r1.ccol⟩

/-- Witness for C10 on the two-relationship engine of the duplicate-column
scenario. -/
theorem c10_last_relationship_wins_witness :
    (∀ col, dictGet? (fkSources [⟨"P", "a", "T", "fk"⟩, ⟨"Q", "b", "T", "fk"⟩]
        (FkRel.mk "P" "a" "T" "fk").child) col =
      dictGet? (fkSources ([] ++ [⟨"Q", "b", "T", "fk"⟩])
        (FkRel.mk "P" "a" "T" "fk").child) col) ∧
    (∀ (schema : Schema) (pools : Pools) (fake : Nat → Nat) (count ctr : Nat),
      genTable [⟨"P", "a", "T", "fk"⟩, ⟨"Q", "b", "T", "fk"⟩]
          (FkRel.mk "P" "a" "T" "fk").child schema pools fake count ctr =
        genTable ([] ++ [⟨"Q", "b", "T", "fk"⟩])
          (FkRel.mk "P" "a" "T" "fk").child schema pools fake count ctr) ∧
    dictGet? (fkSources [⟨"P", "a", "T", "fk"⟩, ⟨"Q", "b", "T", "fk"⟩]
        (FkRel.mk "P" "a" "T" "fk").child) (FkRel.mk "P" "a" "T" "fk").ccol =
      (lastDecl? [⟨"P", "a", "T", "fk"⟩, ⟨"Q", "b", "T", "fk"⟩]
          (FkRel.mk "P" "a" "T" "fk").child
          (FkRel.mk "P" "a" "T" "fk").ccol).map (fun r => (r.parent, r.pcol)) :=
  c10_last_relationship_wins [⟨"P", "a", "T", "fk"⟩, ⟨"Q", "b", "T", "fk"⟩]
    [] [⟨"Q", "b", "T", "fk"⟩] ⟨"P", "a", "T", "fk"⟩ rfl
    ⟨⟨"Q", "b", "T", "fk"⟩, by decide⟩

/-! ### C8 — pool computation idempotent, pools write-once -/

theorem mem_unique_foldl :
    ∀ (l acc : List Value) (v : Value),
      v ∈ l.foldl (fun acc w => if w ∈ acc then acc else acc ++ [w]) acc ↔
        v ∈ acc ∨ v ∈ l := by
  intro l
  induction l with
  | nil => intro acc v; simp
  | cons a rest ih =>
      intro acc v
      rw [List.foldl_cons, ih]
      by_cases ha : a ∈ acc
      · simp only [if_pos ha, List.mem_cons]
        constructor
        · rintro (h | h)
          · exact Or.inl h
          · exact Or.inr (Or.inr h)
        · rintro (h | h | h)
          · exact Or.inl h
          · exact Or.inl (h ▸ ha)
          · exact Or.inr h
      · simp only [if_neg ha, List.mem_append, List.mem_singleton, List.mem_cons]
        tauto

theorem nodup_unique_foldl :
    ∀ (l acc : List Value), acc.Nodup →
      (l.foldl (fun acc w => if w ∈ acc then acc else acc ++ [w]) acc).Nodup := by
  intro l
  induction l with
  | nil => intro acc h; simpa using h
  | cons a rest ih =>
      intro acc h
      rw [List.foldl_cons]
      by_cases ha : a ∈ acc
      · rw [if_pos ha]; exact ih acc h
      · rw [if_neg ha]
        refine ih (acc ++ [a]) ?_
        simp [List.nodup_append, h, ha]

theorem unique_foldl_of_nodup :
    ∀ (l acc : List Value), l.Nodup → (∀ v ∈ l, v ∉ acc) →
      l.foldl (fun acc w => if w ∈ acc then acc else acc ++ [w]) acc = acc ++ l := by
  intro l
  induction l with
  | nil => intro acc _ _; simp
  | cons a rest ih =>
      intro acc hnd hdisj
      rw [List.foldl_cons, if_neg (hdisj a (List.mem_cons_self a rest))]
      rw [List.nodup_cons] at hnd
      rw [ih (acc ++ [a]) hnd.2 ?_, List.append_assoc, List.singleton_append]
      intro v hv
      simp only [List.mem_append, List.mem_singleton, not_or]
      exact ⟨hdisj v (List.mem_cons_of_mem a hv), fun he => hnd.1 (he ▸ hv)⟩

theorem mem_uniqueList (l : List Value) (v : Value) : v ∈ uniqueList l ↔ v ∈ l := by
  rw [uniqueList, mem_unique_foldl]
  simp

theorem uniqueList_nodup (l : List Value) : (uniqueList l).Nodup :=
  nodup_unique_foldl l [] List.nodup_nil

theorem uniqueList_idem (l : List Value) : uniqueList (uniqueList l) = uniqueList l := by
  rw [show uniqueList (uniqueList l) =
      (uniqueList l).foldl (fun acc w => if w ∈ acc then acc else acc ++ [w]) [] from rfl]
  rw [unique_foldl_of_nodup (uniqueList l) [] (uniqueList_nodup l) (by simp)]
  simp

theorem publishPools_ne_table (t : String) (df : DF) (key : String × String)
    (hk : key.1 ≠ t) :
    ∀ (rels : List FkRel) (pools : Pools),
      dictGet? (publishPools rels t df pools) key = dictGet? pools key := by
  intro rels
  induction rels with
  | nil => intro pools; rfl
  | cons r rest ih =>
      intro pools
      rw [publishPools, List.foldl_cons]
      by_cases hc : r.parent = t ∧ r.pcol ∈ dfColumns df
      · rw [if_pos hc]
        rw [show rest.foldl _ (dictSet pools (t, r.pcol) (uniqueList (colValues df r.pcol))) =
            publishPools rest t df (dictSet pools (t, r.pcol) (uniqueList (colValues df r.pcol)))
          from rfl, ih]
        exact dictGet?_dictSet_ne pools (t, r.pcol) key (uniqueList (colValues df r.pcol))
          (fun he => hk (congrArg Prod.fst he))
      · rw [if_neg hc]
        exact ih pools

theorem publishPools_lookup (t : String) (df : DF) (x : String) :
    ∀ (rels : List FkRel) (pools : Pools),
      dictGet? (publishPools rels t df pools) (t, x) =
        (if ∃ r ∈ rels, r.parent = t ∧ r.pcol ∈ dfColumns df ∧ r.pcol = x
         then some (uniqueList (colValues df x)) else dictGet? pools (t, x)) := by
  intro rels
  induction rels with
  | nil =>
      intro pools
      simp [publishPools]
  | cons r rest ih =>
      intro pools
      have hfold :
          publishPools (r :: rest) t df pools =
          publishPools rest t df
            (if r.parent = t ∧ r.pcol ∈ dfColumns df
             then dictSet pools (t, r.pcol) (uniqueList (colValues df r.pcol)) else pools) := by
        rw [publishPools, List.foldl_cons]
        rfl
      rw [hfold]
      by_cases hc : r.parent = t ∧ r.pcol ∈ dfColumns df
      · rw [if_pos hc]
        by_cases hx : r.pcol = x
        · subst hx
          rw [ih]
          have hex : ∃ r' ∈ r :: rest,
              r'.parent = t ∧ r'.pcol ∈ dfColumns df ∧ r'.pcol = r.pcol :=
            ⟨r, List.mem_cons_self r rest, hc.1, hc.2, rfl⟩
          rw [if_pos hex,
            dictGet?_dictSet_self pools (t, r.pcol) (uniqueList (colValues df r.pcol))]
          by_cases hex2 : ∃ r' ∈ rest, r'.parent = t ∧ r'.pcol ∈ dfColumns df ∧ r'.pcol = r.pcol
          · rw [if_pos hex2]
          · rw [if_neg hex2]
        · rw [ih,
            dictGet?_dictSet_ne pools (t, r.pcol) (t, x) _
              (fun he => hx (congrArg Prod.snd he).symm)]
          by_cases hex2 : ∃ r' ∈ rest, r'.parent = t ∧ r'.pcol ∈ dfColumns df ∧ r'.pcol = x
          · have hex : ∃ r' ∈ r :: rest,
                r'.parent = t ∧ r'.pcol ∈ dfColumns df ∧ r'.pcol = x := by
              obtain ⟨r', hr', hp⟩ := hex2
              exact ⟨r', List.mem_cons_of_mem r hr', hp⟩
            rw [if_pos hex2, if_pos hex]
          · have hex : ¬ ∃ r' ∈ r :: rest,
                r'.parent = t ∧ r'.pcol ∈ dfColumns df ∧ r'.pcol = x := by
              rintro ⟨r', hr', hp⟩
              rcases List.mem_cons.mp hr' with he | he
              · exact hx (he ▸ hp.2.2)
              · exact hex2 ⟨r', he, hp⟩
            rw [if_neg hex2, if_neg hex]
      · rw [if_neg hc, ih]
        by_cases hex2 : ∃ r' ∈ rest, r'.parent = t ∧ r'.pcol ∈ dfColumns df ∧ r'.pcol = x
        · have hex : ∃ r' ∈ r :: rest,
              r'.parent = t ∧ r'.pcol ∈ dfColumns df ∧ r'.pcol = x := by
            obtain ⟨r', hr', hp⟩ := hex2
            exact ⟨r', List.mem_cons_of_mem r hr', hp⟩
          rw [if_pos hex2, if_pos hex]
        · have hex : ¬ ∃ r' ∈ r :: rest,
              r'.parent = t ∧ r'.pcol ∈ dfColumns df ∧ r'.pcol = x := by
            rintro ⟨r', hr', hp⟩
            rcases List.mem_cons.mp hr' with he | he
            · exact hc (he ▸ ⟨hp.1, hp.2.1⟩)
            · exact hex2 ⟨r', he, hp⟩
          rw [if_neg hex2, if_neg hex]

theorem publishPools_hit (rels : List FkRel) (t : String) (df : DF) (pools : Pools)
    (r : FkRel) (hr : r ∈ rels) (hp : r.parent = t) (hcol : r.pcol ∈ dfColumns df) :
    dictGet? (publishPools rels t df pools) (t, r.pcol) =
      some (uniqueList (colValues df r.pcol)) := by
  rw [publishPools_lookup t df r.pcol rels pools, if_pos ⟨r, hr, hp, hcol, rfl⟩]

theorem publishPools_noop (t : String) (df : DF) :
    ∀ (rels : List FkRel) (pools : Pools),
      (∀ r ∈ rels, r.parent = t → r.pcol ∈ dfColumns df →
        dictGet? pools (t, r.pcol) = some (uniqueList (colValues df r.pcol))) →
      publishPools rels t df pools = pools := by
  intro rels
  induction rels with
  | nil => intro pools _; rfl
  | cons r rest ih =>
      intro pools h
      have hfold :
          publishPools (r :: rest) t df pools =
          publishPools rest t df
            (if r.parent = t ∧ r.pcol ∈ dfColumns df
             then dictSet pools (t, r.pcol) (uniqueList (colValues df r.pcol)) else pools) := by
        rw [publishPools, List.foldl_cons]
        rfl
      rw [hfold]
      by_cases hc : r.parent = t ∧ r.pcol ∈ dfColumns df
      · rw [if_pos hc,
          dictSet_same pools (t, r.pcol) (uniqueList (colValues df r.pcol))
            (h r (List.mem_cons_self r rest) hc.1 hc.2)]
        exact ih pools (fun r' hr' => h r' (List.mem_cons_of_mem r hr'))
      · rw [if_neg hc]
        exact ih pools (fun r' hr' => h r' (List.mem_cons_of_mem r hr'))

/-- C8: pool computation is idempotent and pools are write-once: deduping a
column twice equals deduping it once (and the dedup keeps exactly the
column's values as a set); the publication step for one table never touches
a pool registered under another table's key; and re-running a table's whole
publication step on its own output changes nothing. -/
theorem c8_pool_idempotent_write_once (l : List Value) (v : Value)
    (rels : List FkRel) (t : String) (df : DF) (pools : Pools)
    (key : String × String) (hk : key.1 ≠ t) :
    uniqueList (uniqueList l) = uniqueList l ∧
    (v ∈ uniqueList l ↔ v ∈ l) ∧
    dictGet? (publishPools rels t df pools) key = dictGet? pools key ∧
    publishPools rels t df (publishPools rels t df pools) = publishPools rels t df pools :=
  ⟨uniqueList_idem l, mem_uniqueList l v,
    publishPools_ne_table t df key hk rels pools,
    publishPools_noop t df rels (publishPools rels t df pools)
      (fun r hr hp hcol => publishPools_hit rels t df pools r hr hp hcol)⟩

/-- Witness for C8 at a concrete column and pool dictionary. -/
theorem c8_pool_idempotent_write_once_witness :
    uniqueList (uniqueList [Value.vInt 1, Value.vInt 1, Value.vInt 2]) =
      uniqueList [Value.vInt 1, Value.vInt 1, Value.vInt 2] ∧
    (Value.vInt 2 ∈ uniqueList [Value.vInt 1, Value.vInt 1, Value.vInt 2] ↔
      Value.vInt 2 ∈ [Value.vInt 1, Value.vInt 1, Value.vInt 2]) ∧
    dictGet? (publishPools [⟨"p", "id", "c", "fk"⟩] "p" [[("id", Value.vInt 7)]]
        [(("other", "id"), [Value.vInt 9])]) ("other", "id") =
      dictGet? [(("other", "id"), [Value.vInt 9])] ("other", "id") ∧
    publishPools [⟨"p", "id", "c", "fk"⟩] "p" [[("id", Value.vInt 7)]]
        (publishPools [⟨"p", "id", "c", "fk"⟩] "p" [[("id", Value.vInt 7)]]
          [(("other", "id"), [Value.vInt 9])]) =
      publishPools [⟨"p", "id", "c", "fk"⟩] "p" [[("id", Value.vInt 7)]]
        [(("other", "id"), [Value.vInt 9])] :=
  c8_pool_idempotent_write_once [Value.vInt 1, Value.vInt 1, Value.vInt 2] (Value.vInt 2)
    [⟨"p", "id", "c", "fk"⟩] "p" [[("id", Value.vInt 7)]]
    [(("other", "id"), [Value.vInt 9])] ("other", "id") (by decide)

/-! ### C5 — unknown table / column validation -/



/-- C5 counterexample: a relationship whose parent column is absent from the
parent schema is accepted silently: declaration records it, `build_dag`
resolves, and `generate_all` completes — no unknown-table/unknown-column
error exists anywhere in the engine. -/
theorem c5_cex_unknown_column_silent_success :
    buildDag c5Engine = .ok ["a", "b"] ∧
    generateAll c5Engine [("a", 1), ("b", 1)] (fun n => n) =
      .ok [("a", [[("x", Value.vInt 0)]]), ("b", [[("y", Value.vInt 1)]])] :=
  ⟨rfl, rfl⟩

/-- C5 (amended): neither `add_relationship` nor resolution validates the
referenced tables or columns: declaration always succeeds and merely appends
the tuple, and a relationship with an unknown parent column passes
resolution and generation without any error (the unknown column simply never
yields a pool). -/
theorem c5_amended_no_declaration_validation (e : RelationalEngine)
    (p pc c cc : String) :
    (e.addRelationship p pc c cc).tables = e.tables ∧
    (e.addRelationship p pc c cc).relationships = e.relationships ++ [⟨p, pc, c, cc⟩] ∧
    buildDag c5Engine = .ok ["a", "b"] ∧
    (∃ res, generateAll c5Engine [("a", 1), ("b", 1)] (fun n => n) = .ok res) :=
  ⟨rfl, rfl, rfl, ⟨_, rfl⟩⟩

/-! ### Counterexamples for C2, C3, C7 (unregistered tables in relationships) -/



/-- C2 counterexample: `build_dag` succeeds (the unregistered child `B`
pads the order to the catalog's size) yet the returned order omits the
registered table `D`, so neither "contains every registered table" nor the
position guarantee for `D`'s relationship holds. -/
theorem c2_cex_success_missing_registered_table :
    buildDag c2Engine = .ok ["A", "B"] ∧
    "D" ∈ c2Engine.tables.map Prod.fst ∧
    "D" ∉ ["A", "B"] ∧
    (⟨"D", "x", "D", "y"⟩ : FkRel) ∈ c2Engine.relationships :=
  ⟨rfl, by decide, by decide, by decide⟩



/-- C3 counterexample: the relationship set contains the cycle `A -> B -> A`
among registered tables, yet `generate_all` does not fail with the
cyclic-dependency error naming `{A, B}` — the unregistered children pad the
order to full length, `build_dag` "succeeds", and the run instead dies with
the `KeyError` on the unregistered table `U` (after generating `C`'s rows). -/
theorem c3_cex_cycle_masked_by_unknown_children :
    (⟨"A", "x", "B", "y"⟩ : FkRel) ∈ c3Engine.relationships ∧
    (⟨"B", "x", "A", "y"⟩ : FkRel) ∈ c3Engine.relationships ∧
    generateAll c3Engine [("A", 1), ("B", 1), ("C", 1)] (fun n => n) =
      .error (.missingTable "U") :=
  ⟨by decide, by decide, rfl⟩



/-- C7 counterexample: despite the self-referencing relationship on `S`,
`build_dag` does not fail — the unregistered child `B` pads the order to
the catalog's size — so no cyclic-dependency error naming `S` is raised;
`S` is indeed never placed, silently. -/
theorem c7_cex_self_loop_not_reported :
    (⟨"S", "x", "S", "y"⟩ : FkRel) ∈ c7Engine.relationships ∧
    buildDag c7Engine = .ok ["A", "B"] ∧
    "S" ∉ ["A", "B"] :=
  ⟨by decide, rfl, by decide⟩

/-! ### Counting helpers for the Kahn invariant -/









theorem countS_cons (x : String) (cs : List String) (c : String) :
    countS (x :: cs) c = countS cs c + (if x = c then 1 else 0) := by
  by_cases h : x = c <;> simp [countS, List.filter_cons, h]

theorem totalIn_cons (r : FkRel) (rest : List FkRel) (c : String) :
    totalIn (r :: rest) c = totalIn rest c + (if r.child = c then 1 else 0) := by
  by_cases h : r.child = c <;> simp [totalIn, List.filter_cons, h]

theorem inCount_cons (r : FkRel) (rest : List FkRel) (o : List String) (c : String) :
    inCount (r :: rest) o c =
      inCount rest o c + (if r.child = c ∧ r.parent ∈ o then 1 else 0) := by
  by_cases h1 : r.child = c <;> by_cases h2 : r.parent ∈ o <;>
    simp [inCount, List.filter_cons, h1, h2]

theorem edgeCnt_cons (r : FkRel) (rest : List FkRel) (n c : String) :
    edgeCnt (r :: rest) n c =
      edgeCnt rest n c + (if r.parent = n ∧ r.child = c then 1 else 0) := by
  by_cases h1 : r.parent = n <;> by_cases h2 : r.child = c <;>
    simp [edgeCnt, List.filter_cons, h1, h2]

theorem totalIn_pos_of_mem (rels : List FkRel) (r : FkRel) (c : String)
    (hr : r ∈ rels) (hc : r.child = c) : 0 < totalIn rels c := by
  induction rels with
  | nil => simp at hr
  | cons r0 rest ih =>
      rw [totalIn_cons]
      rcases List.mem_cons.mp hr with h | h
      · rw [if_pos (h ▸ hc)]
        omega
      · have := ih h
        omega

theorem inCount_nil_o (rels : List FkRel) (c : String) : inCount rels [] c = 0 := by
  induction rels with
  | nil => rfl
  | cons r rest ih => rw [inCount_cons, ih]; simp

theorem inCount_le (rels : List FkRel) (o : List String) (c : String) :
    inCount rels o c ≤ totalIn rels c := by
  induction rels with
  | nil => simp [inCount, totalIn]
  | cons r rest ih =>
      rw [inCount_cons, totalIn_cons]
      by_cases h1 : r.child = c
      · by_cases h2 : r.parent ∈ o <;> simp [h1, h2] <;> omega
      · have h3 : ¬ (r.child = c ∧ r.parent ∈ o) := fun hh => h1 hh.1
        simp [h1, h3]
        omega

theorem inCount_append_one (rels : List FkRel) (o : List String) (n c : String)
    (hn : n ∉ o) :
    inCount rels (o ++ [n]) c = inCount rels o c + edgeCnt rels n c := by
  induction rels with
  | nil => simp [inCount, edgeCnt]
  | cons r rest ih =>
      rw [inCount_cons, inCount_cons, edgeCnt_cons, ih]
      have hmem : r.parent ∈ o ++ [n] ↔ r.parent ∈ o ∨ r.parent = n := by simp
      by_cases h1 : r.child = c
      · by_cases h2 : r.parent ∈ o
        · have h3 : ¬ (r.parent = n ∧ r.child = c) := fun hh => hn (hh.1 ▸ h2)
          have h4 : r.parent ∈ o ++ [n] := hmem.mpr (Or.inl h2)
          rw [if_pos ⟨h1, h4⟩, if_pos ⟨h1, h2⟩, if_neg h3]
          omega
        · by_cases h3 : r.parent = n
          · have h4 : r.parent ∈ o ++ [n] := hmem.mpr (Or.inr h3)
            have h5 : ¬ (r.child = c ∧ r.parent ∈ o) := fun hh => h2 hh.2
            rw [if_pos ⟨h1, h4⟩, if_neg h5, if_pos ⟨h3, h1⟩]
            omega
          · have h4 : ¬ (r.child = c ∧ r.parent ∈ o ++ [n]) := by
              rintro ⟨_, hm⟩
              rcases hmem.mp hm with h | h
              · exact h2 h
              · exact h3 h
            have h5 : ¬ (r.child = c ∧ r.parent ∈ o) := fun hh => h2 hh.2
            have h6 : ¬ (r.parent = n ∧ r.child = c) := fun hh => h3 hh.1
            rw [if_neg h4, if_neg h5, if_neg h6]
            omega
      · have hA : ¬ (r.child = c ∧ r.parent ∈ o ++ [n]) := fun hh => h1 hh.1
        have hB : ¬ (r.child = c ∧ r.parent ∈ o) := fun hh => h1 hh.1
        have hC : ¬ (r.parent = n ∧ r.child = c) := fun hh => h1 hh.2
        rw [if_neg hA, if_neg hB, if_neg hC]
        omega

theorem inCount_full_of_sub (rels : List FkRel) (o : List String) (c : String)
    (h : ∀ r ∈ rels, r.child = c → r.parent ∈ o) :
    inCount rels o c = totalIn rels c := by
  induction rels with
  | nil => rfl
  | cons r rest ih =>
      rw [inCount_cons, totalIn_cons,
        ih (fun r' hr' => h r' (List.mem_cons_of_mem r hr'))]
      by_cases h1 : r.child = c
      · have h2 : r.parent ∈ o := h r (List.mem_cons_self r rest) h1
        simp [h1, h2]
      · have h3 : ¬ (r.child = c ∧ r.parent ∈ o) := fun hh => h1 hh.1
        simp [h1, h3]

theorem sub_of_inCount_full (rels : List FkRel) (o : List String) (c : String)
    (h : inCount rels o c = totalIn rels c) :
    ∀ r ∈ rels, r.child = c → r.parent ∈ o := by
  induction rels with
  | nil => intro r hr; simp at hr
  | cons r0 rest ih =>
      intro r hr hc
      have hle := inCount_le rest o c
      rw [inCount_cons, totalIn_cons] at h
      rcases List.mem_cons.mp hr with he | he
      · subst he
        by_cases h2 : r.parent ∈ o
        · exact h2
        · exfalso
          have h3 : ¬ (r.child = c ∧ r.parent ∈ o) := fun hh => h2 hh.2
          rw [if_pos hc, if_neg h3] at h
          omega
      · refine ih ?_ r he hc
        by_cases h1 : r0.child = c
        · by_cases h2 : r0.parent ∈ o
          · rw [if_pos h1, if_pos ⟨h1, h2⟩] at h
            omega
          · have h3 : ¬ (r0.child = c ∧ r0.parent ∈ o) := fun hh => h2 hh.2
            rw [if_pos h1, if_neg h3] at h
            omega
        · have h3 : ¬ (r0.child = c ∧ r0.parent ∈ o) := fun hh => h1 hh.1
          rw [if_neg h1, if_neg h3] at h
          omega

theorem countS_relChildren (rels : List FkRel) (n c : String) :
    countS (relChildren rels n) c = edgeCnt rels n c := by
  induction rels with
  | nil => rfl
  | cons r rest ih =>
      by_cases h1 : r.parent = n
      · have : relChildren (r :: rest) n = r.child :: relChildren rest n := by
          simp [relChildren, List.filter_cons, h1]
        rw [this, countS_cons, edgeCnt_cons, ih]
        by_cases h2 : r.child = c
        · simp [h1, h2]
        · have h3 : ¬ (r.parent = n ∧ r.child = c) := fun hh => h2 hh.2
          simp [h2, h3]
      · have : relChildren (r :: rest) n = relChildren rest n := by
          simp [relChildren, List.filter_cons, h1]
        have h3 : ¬ (r.parent = n ∧ r.child = c) := fun hh => h1 hh.1
        rw [this, edgeCnt_cons, ih, if_neg h3]
        omega

theorem mem_relChildren (rels : List FkRel) (n c : String) :
    c ∈ relChildren rels n ↔ ∃ r ∈ rels, r.parent = n ∧ r.child = c := by
  simp only [relChildren, List.mem_map, List.mem_filter, decide_eq_true_eq]
  constructor
  · rintro ⟨r, ⟨hr, hp⟩, hc⟩
    exact ⟨r, hr, hp, hc⟩
  · rintro ⟨r, hr, hp, hc⟩
    exact ⟨r, ⟨hr, hp⟩, hc⟩

theorem edgeCnt_pos_of_mem (rels : List FkRel) (r : FkRel) (n c : String)
    (hr : r ∈ rels) (hp : r.parent = n) (hc : r.child = c) : 0 < edgeCnt rels n c := by
  induction rels with
  | nil => simp at hr
  | cons r0 rest ih =>
      rw [edgeCnt_cons]
      rcases List.mem_cons.mp hr with h | h
      · rw [if_pos (h ▸ ⟨hp, hc⟩)]
        omega
      · have := ih h
        omega

/-! ### in_degree initialisation lemmas -/

theorem dictGetD_dictSet_self {κ α : Type} [DecidableEq κ]
    (m : List (κ × α)) (k : κ) (v d : α) : dictGetD (dictSet m k v) k d = v := by
  rw [dictGetD, dictGet?_dictSet_self]
  rfl

theorem dictGetD_dictSet_ne {κ α : Type} [DecidableEq κ]
    (m : List (κ × α)) (k k' : κ) (v d : α) (h : k' ≠ k) :
    dictGetD (dictSet m k v) k' d = dictGetD m k' d := by
  rw [dictGetD, dictGet?_dictSet_ne m k k' v h]
  rfl

theorem mem_dictKeys_dictSet_self {κ α : Type} [DecidableEq κ]
    (m : List (κ × α)) (k : κ) (v : α) : k ∈ dictKeys (dictSet m k v) := by
  rw [dictKeys_dictSet]
  by_cases h : k ∈ dictKeys m
  · rwa [if_pos h]
  · rw [if_neg h]
    simp

theorem dictKeys_dictSet_sub {κ α : Type} [DecidableEq κ]
    (m : List (κ × α)) (k : κ) (v : α) :
    dictKeys (dictSet m k v) ⊆ dictKeys m ++ [k] := by
  rw [dictKeys_dictSet]
  by_cases h : k ∈ dictKeys m
  · rw [if_pos h]
    exact List.subset_append_left _ _
  · rw [if_neg h]
    exact fun x hx => hx

theorem dictKeys_dictSet_sup {κ α : Type} [DecidableEq κ]
    (m : List (κ × α)) (k : κ) (v : α) :
    dictKeys m ⊆ dictKeys (dictSet m k v) := by
  rw [dictKeys_dictSet]
  by_cases h : k ∈ dictKeys m
  · rw [if_pos h]
    exact fun x hx => hx
  · rw [if_neg h]
    exact List.subset_append_left _ _

theorem dictKeys_dictSet_nodup {κ α : Type} [DecidableEq κ]
    (m : List (κ × α)) (k : κ) (v : α) (h : (dictKeys m).Nodup) :
    (dictKeys (dictSet m k v)).Nodup := by
  rw [dictKeys_dictSet]
  by_cases hk : k ∈ dictKeys m
  · rwa [if_pos hk]
  · rw [if_neg hk]
    simp [List.nodup_append, h, hk]

theorem initFold_getD :
    ∀ (rels : List FkRel) (d : List (String × Int)) (k : String),
      dictGetD (rels.foldl (fun d r => dictSet d r.child (dictGetD d r.child 0 + 1)) d) k 0 =
        dictGetD d k 0 + (totalIn rels k : Int) := by
  intro rels
  induction rels with
  | nil => intro d k; simp [totalIn]
  | cons r rest ih =>
      intro d k
      rw [List.foldl_cons, ih, totalIn_cons]
      by_cases hk : k = r.child
      · subst hk
        rw [dictGetD_dictSet_self, if_pos rfl]
        push_cast
        ring
      · rw [dictGetD_dictSet_ne d r.child k _ 0 hk,
          if_neg (fun he => hk he.symm)]
        push_cast
        omega

theorem base_getD (tables : List (String × Schema)) (k : String) :
    dictGetD (tables.map (fun t => (t.1, (0 : Int)))) k 0 = 0 := by
  induction tables with
  | nil => rfl
  | cons t rest ih =>
      by_cases h : t.1 = k
      · simp [dictGetD, dictGet?, h]
      · simpa [dictGetD, dictGet?, h] using ih

theorem initInDegree_getD (tables : List (String × Schema)) (rels : List FkRel)
    (k : String) :
    dictGetD (initInDegree tables rels) k 0 = (totalIn rels k : Int) := by
  rw [initInDegree, initFold_getD, base_getD]
  omega

theorem base_keys (tables : List (String × Schema)) :
    dictKeys (tables.map (fun t => (t.1, (0 : Int)))) = tables.map Prod.fst := by
  induction tables with
  | nil => rfl
  | cons t rest _ => simp [dictKeys]

theorem initFold_keys_sup :
    ∀ (rels : List FkRel) (d : List (String × Int)),
      dictKeys d ⊆
        dictKeys (rels.foldl (fun d r => dictSet d r.child (dictGetD d r.child 0 + 1)) d) := by
  intro rels
  induction rels with
  | nil => intro d; exact fun x hx => hx
  | cons r rest ih =>
      intro d
      rw [List.foldl_cons]
      exact fun x hx => ih _ (dictKeys_dictSet_sup d r.child _ hx)

theorem initFold_keys_sub :
    ∀ (rels : List FkRel) (d : List (String × Int)),
      dictKeys (rels.foldl (fun d r => dictSet d r.child (dictGetD d r.child 0 + 1)) d) ⊆
        dictKeys d ++ rels.map FkRel.child := by
  intro rels
  induction rels with
  | nil => intro d; simp
  | cons r rest ih =>
      intro d
      rw [List.foldl_cons]
      intro x hx
      have h1 := ih (dictSet d r.child (dictGetD d r.child 0 + 1)) hx
      rcases List.mem_append.mp h1 with h | h
      · have h2 := dictKeys_dictSet_sub d r.child (dictGetD d r.child 0 + 1) h
        rcases List.mem_append.mp h2 with h3 | h3
        · exact List.mem_append.mpr (Or.inl h3)
        · rw [List.mem_singleton] at h3
          subst h3
          simp
      · simp only [List.mem_append, List.map_cons, List.mem_cons]
        exact Or.inr (Or.inr h)

theorem initFold_keys_nodup :
    ∀ (rels : List FkRel) (d : List (String × Int)), (dictKeys d).Nodup →
      (dictKeys (rels.foldl (fun d r => dictSet d r.child (dictGetD d r.child 0 + 1)) d)).Nodup := by
  intro rels
  induction rels with
  | nil => intro d h; exact h
  | cons r rest ih =>
      intro d h
      rw [List.foldl_cons]
      exact ih _ (dictKeys_dictSet_nodup d r.child _ h)

theorem initFold_child_mem :
    ∀ (rels : List FkRel) (d : List (String × Int)) (r : FkRel), r ∈ rels →
      r.child ∈
        dictKeys (rels.foldl (fun d r => dictSet d r.child (dictGetD d r.child 0 + 1)) d) := by
  intro rels
  induction rels with
  | nil => intro d r hr; simp at hr
  | cons r0 rest ih =>
      intro d r hr
      rw [List.foldl_cons]
      rcases List.mem_cons.mp hr with h | h
      · subst h
        exact initFold_keys_sup rest _
          (mem_dictKeys_dictSet_self d r.child _)
      · exact ih _ r h

theorem initInDegree_keys_nodup (tables : List (String × Schema)) (rels : List FkRel)
    (hN : (tables.map Prod.fst).Nodup) :
    (dictKeys (initInDegree tables rels)).Nodup := by
  rw [initInDegree]
  exact initFold_keys_nodup rels _ (by rwa [base_keys])

theorem initInDegree_child_mem (tables : List (String × Schema)) (rels : List FkRel)
    (r : FkRel) (hr : r ∈ rels) :
    r.child ∈ dictKeys (initInDegree tables rels) :=
  initFold_child_mem rels _ r hr

theorem initInDegree_keys_sub (tables : List (String × Schema)) (rels : List FkRel) :
    dictKeys (initInDegree tables rels) ⊆ tables.map Prod.fst ++ rels.map FkRel.child := by
  rw [initInDegree]
  intro x hx
  have := initFold_keys_sub rels _ hx
  rwa [base_keys] at this

theorem initInDegree_keys_sup (tables : List (String × Schema)) (rels : List FkRel) :
    tables.map Prod.fst ⊆ dictKeys (initInDegree tables rels) := by
  rw [initInDegree]
  intro x hx
  exact initFold_keys_sup rels _ (by rwa [base_keys])

/-! ### processChildren characterisation -/

theorem processChildren_cons (c : String) (rest : List String)
    (d : List (String × Int)) (q : List String) :
    processChildren (c :: rest) d q =
      processChildren rest (dictSet d c (dictGetD d c 0 - 1))
        (if dictGetD (dictSet d c (dictGetD d c 0 - 1)) c 0 = 0 then q ++ [c] else q) := rfl

theorem processChildren_spec :
    ∀ (cs : List String) (d : List (String × Int)) (q : List String),
      (∀ k, dictGetD (processChildren cs d q).1 k 0 =
        dictGetD d k 0 - (countS cs k : Int)) ∧
      (∃ acc : List String, (processChildren cs d q).2 = q ++ acc ∧ acc.Nodup ∧
        ∀ c ∈ acc, c ∈ cs ∧ 0 < dictGetD d c 0 ∧
          dictGetD d c 0 ≤ (countS cs c : Int)) := by
  intro cs
  induction cs with
  | nil =>
      intro d q
      constructor
      · intro k
        simp [processChildren, countS]
      · exact ⟨[], by simp [processChildren], List.nodup_nil, by simp⟩
  | cons c rest ih =>
      intro d q
      have hdget : dictGetD (dictSet d c (dictGetD d c 0 - 1)) c 0 = dictGetD d c 0 - 1 :=
        dictGetD_dictSet_self d c _ 0
      have hd' : ∀ k, dictGetD (dictSet d c (dictGetD d c 0 - 1)) k 0 =
          dictGetD d k 0 - (if k = c then 1 else 0) := by
        intro k
        by_cases hk : k = c
        · subst hk
          rw [hdget]
          simp
        · rw [dictGetD_dictSet_ne d c k _ 0 hk]
          simp [hk]
      constructor
      · intro k
        rw [processChildren_cons]
        rcases ih (dictSet d c (dictGetD d c 0 - 1))
          (if dictGetD (dictSet d c (dictGetD d c 0 - 1)) c 0 = 0 then q ++ [c] else q)
          with ⟨h1, _⟩
        rw [h1 k, hd' k, countS_cons]
        by_cases hk : k = c
        · rw [if_pos hk, if_pos hk.symm]
          push_cast
          omega
        · rw [if_neg hk, if_neg (fun he => hk he.symm)]
          push_cast
          omega
      · rw [processChildren_cons]
        by_cases hcond : dictGetD (dictSet d c (dictGetD d c 0 - 1)) c 0 = 0
        · rw [if_pos hcond]
          rcases ih (dictSet d c (dictGetD d c 0 - 1)) (q ++ [c])
            with ⟨_, acc', hacc', hnd', hprop'⟩
          have hg : dictGetD d c 0 = 1 := by
            rw [hdget] at hcond
            omega
          refine ⟨c :: acc', ?_, ?_, ?_⟩
          · rw [hacc', List.append_assoc, List.singleton_append]
          · rw [List.nodup_cons]
            refine ⟨fun hmem => ?_, hnd'⟩
            have := (hprop' c hmem).2.1
            rw [hdget, hg] at this
            omega
          · intro a ha
            rcases List.mem_cons.mp ha with h | h
            · subst h
              refine ⟨List.mem_cons_self a rest, by omega, ?_⟩
              rw [countS_cons, if_pos rfl, hg]
              push_cast
              omega
            · obtain ⟨hmem, hpos, hle⟩ := hprop' a h
              have hane : a ≠ c := by
                intro he
                rw [he, hdget, hg] at hpos
                omega
              rw [hd' a, if_neg hane] at hpos hle
              refine ⟨List.mem_cons_of_mem c hmem, by omega, ?_⟩
              rw [countS_cons, if_neg (fun he => hane he.symm)]
              push_cast
              omega
        · rw [if_neg hcond]
          rcases ih (dictSet d c (dictGetD d c 0 - 1)) q
            with ⟨_, acc', hacc', hnd', hprop'⟩
          have hg : dictGetD d c 0 ≠ 1 := by
            rw [hdget] at hcond
            omega
          refine ⟨acc', hacc', hnd', ?_⟩
          intro a ha
          obtain ⟨hmem, hpos, hle⟩ := hprop' a ha
          by_cases hane : a = c
          · subst hane
            rw [hdget] at hpos hle
            refine ⟨List.mem_cons_self a rest, by omega, ?_⟩
            rw [countS_cons, if_pos rfl]
            push_cast
            omega
          · rw [hd' a, if_neg hane] at hpos hle
            refine ⟨List.mem_cons_of_mem c hmem, by omega, ?_⟩
            rw [countS_cons, if_neg (fun he => hane he.symm)]
            push_cast
            omega

/-! ### The Kahn loop invariant -/

theorem indexOf_append_left_mem (o rest : List String) (c : String) (h : c ∈ o) :
    (o ++ rest).indexOf c = o.indexOf c := by
  induction o with
  | nil => simp at h
  | cons x o' ih =>
      by_cases hx : x = c
      · simp [List.indexOf_cons, hx]
      · rcases List.mem_cons.mp h with he | he
        · exact absurd he.symm hx
        · simp [List.indexOf_cons, hx, ih he]

theorem indexOf_append_self_not_mem (o : List String) (n : String) (h : n ∉ o) :
    (o ++ [n]).indexOf n = o.length := by
  induction o with
  | nil => simp [List.indexOf_cons]
  | cons x o' ih =>
      have hx : ¬ (x = n) := fun he => h (by rw [← he]; exact List.mem_cons_self x o')
      simp [List.indexOf_cons, hx, ih (fun hm => h (List.mem_cons_of_mem x hm))]

theorem indexOf_lt_of_mem_take (l : List String) :
    ∀ (k : Nat) (x : String), x ∈ l.take k → l.indexOf x < k := by
  induction l with
  | nil => intro k x h; simp at h
  | cons a l' ih =>
      intro k x h
      cases k with
      | zero => simp at h
      | succ k' =>
          rw [List.take_succ_cons] at h
          rcases List.mem_cons.mp h with he | he
          · subst he
            simp [List.indexOf_cons]
          · by_cases ha : a = x
            · simp [List.indexOf_cons, ha]
            · simp only [List.indexOf_cons]
              have : ¬ (a == x) = true := by simpa using ha
              simp only [this, cond_false]
              have := ih k' x he
              omega



theorem kahnInv_step (rels : List FkRel) (K : List String)
    (hchildK : ∀ r ∈ rels, r.child ∈ K)
    (n : String) (q : List String) (d : List (String × Int)) (o : List String)
    (inv : KahnInv rels K (n :: q) d o) :
    KahnInv rels K (processChildren (relChildren rels n) d q).2
      (processChildren (relChildren rels n) d q).1 (o ++ [n]) := by
  rcases processChildren_spec (relChildren rels n) d q with
    ⟨hdeg', acc, hacc, haccnd, haccprop⟩
  have heq : o ++ n :: q = (o ++ [n]) ++ q := by simp
  have h2 : ((o ++ [n]) ++ q).Nodup := heq ▸ inv.nodup
  have hon : (o ++ [n]).Nodup := h2.of_append_left
  have hno : n ∉ o := by
    rw [List.nodup_append] at hon
    intro hmem
    exact hon.2.2 hmem (List.mem_singleton.mpr rfl)
  have hqz : ∀ c ∈ n :: q, dictGetD d c 0 = 0 := by
    intro c hc
    rw [inv.deg c,
      inCount_full_of_sub rels o c (fun r hr hcr => inv.qzero c hc r hr hcr)]
    omega
  have haccnotold : ∀ a ∈ acc, a ∉ o ∧ a ∉ n :: q := by
    intro a ha
    obtain ⟨hcs, hpos, _⟩ := haccprop a ha
    obtain ⟨r, hr, hp, hc⟩ := (mem_relChildren rels n a).mp hcs
    constructor
    · intro hao
      have htk := inv.topo r hr (hc ▸ hao)
      have : r.parent ∈ o := List.take_subset _ o htk
      rw [hp] at this
      exact hno this
    · intro haq
      rw [hqz a haq] at hpos
      omega
  have hdisj : ∀ a ∈ acc, a ∉ (o ++ [n]) ++ q := by
    intro a ha hmem
    obtain ⟨h3, h4⟩ := haccnotold a ha
    rcases List.mem_append.mp hmem with h5 | h5
    · rcases List.mem_append.mp h5 with h6 | h6
      · exact h3 h6
      · exact h4 (List.mem_singleton.mp h6 ▸ List.mem_cons_self n q)
    · exact h4 (List.mem_cons_of_mem n h5)
  have hcseq : ∀ k, (countS (relChildren rels n) k : Int) = (edgeCnt rels n k : Int) := by
    intro k
    rw [countS_relChildren]
  refine ⟨?_, ?_, ?_, ?_, ?_⟩
  · rw [hacc, show (o ++ [n]) ++ (q ++ acc) = ((o ++ [n]) ++ q) ++ acc by
      simp [List.append_assoc]]
    rw [List.nodup_append]
    exact ⟨h2, haccnd, fun a ha hmem => hdisj a hmem ha⟩
  · intro x hx
    rw [hacc] at hx
    rcases List.mem_append.mp hx with h5 | h5
    · rcases List.mem_append.mp h5 with h6 | h6
      · exact inv.subK x (List.mem_append.mpr (Or.inl h6))
      · exact inv.subK x
          (List.mem_append.mpr (Or.inr (List.mem_singleton.mp h6 ▸ List.mem_cons_self n q)))
    · rcases List.mem_append.mp h5 with h6 | h6
      · exact inv.subK x (List.mem_append.mpr (Or.inr (List.mem_cons_of_mem n h6)))
      · obtain ⟨hcs, _, _⟩ := haccprop x h6
        obtain ⟨r, hr, _, hc⟩ := (mem_relChildren rels n x).mp hcs
        exact hc ▸ hchildK r hr
  · intro k
    rw [hdeg' k, inv.deg k, inCount_append_one rels o n k hno, hcseq k]
    push_cast
    omega
  · intro c hc
    rw [hacc] at hc
    rcases List.mem_append.mp hc with h5 | h5
    · intro r hr hcr
      exact List.mem_append.mpr
        (Or.inl (inv.qzero c (List.mem_cons_of_mem n h5) r hr hcr))
    · obtain ⟨hcs, hpos, hle⟩ := haccprop c h5
      have hfull : inCount rels (o ++ [n]) c = totalIn rels c := by
        have e1 := inv.deg c
        have e2 := inCount_append_one rels o n c hno
        have e3 := inCount_le rels (o ++ [n]) c
        rw [hcseq c] at hle
        rw [e1] at hpos hle
        omega
      exact sub_of_inCount_full rels (o ++ [n]) c hfull
  · intro r hr hc
    rcases List.mem_append.mp hc with h5 | h5
    · have htk := inv.topo r hr h5
      rw [indexOf_append_left_mem o [n] r.child h5,
        List.take_append_of_le_length
          (Nat.le_of_lt (List.indexOf_lt_length.mpr h5))]
      exact htk
    · rw [List.mem_singleton] at h5
      rw [h5, indexOf_append_self_not_mem o n hno, List.take_left]
      exact inv.qzero n (List.mem_cons_self n q) r hr h5

theorem kahnInv_conclusions (rels : List FkRel) (K : List String)
    (q : List String) (d : List (String × Int)) (o : List String)
    (inv : KahnInv rels K q d o) :
    o.Nodup ∧ (∀ x ∈ o, x ∈ K) ∧
    (∀ r ∈ rels, r.child ∈ o → r.parent ∈ o.take (o.indexOf r.child)) :=
  ⟨inv.nodup.of_append_left,
    fun x hx => inv.subK x (List.mem_append.mpr (Or.inl hx)), inv.topo⟩

theorem kahnLoop_inv (rels : List FkRel) (K : List String)
    (hchildK : ∀ r ∈ rels, r.child ∈ K) :
    ∀ (fuel : Nat) (q : List String) (d : List (String × Int)) (o : List String),
      KahnInv rels K q d o →
      (kahnLoop rels fuel q d o).Nodup ∧
      (∀ x ∈ kahnLoop rels fuel q d o, x ∈ K) ∧
      (∀ r ∈ rels, r.child ∈ kahnLoop rels fuel q d o →
        r.parent ∈ (kahnLoop rels fuel q d o).take
          ((kahnLoop rels fuel q d o).indexOf r.child)) ∧
      (∀ x ∈ o, x ∈ kahnLoop rels fuel q d o) := by
  intro fuel
  induction fuel with
  | zero =>
      intro q d o inv
      cases q with
      | nil =>
          obtain ⟨h1, h2, h3⟩ := kahnInv_conclusions rels K [] d o inv
          exact ⟨h1, h2, h3, fun x hx => hx⟩
      | cons n q' =>
          obtain ⟨h1, h2, h3⟩ := kahnInv_conclusions rels K (n :: q') d o inv
          exact ⟨h1, h2, h3, fun x hx => hx⟩
  | succ fuel ih =>
      intro q d o inv
      cases q with
      | nil =>
          obtain ⟨h1, h2, h3⟩ := kahnInv_conclusions rels K [] d o inv
          exact ⟨h1, h2, h3, fun x hx => hx⟩
      | cons n q' =>
          have hstep := kahnInv_step rels K hchildK n q' d o inv
          have hres := ih _ _ _ hstep
          refine ⟨hres.1, hres.2.1, hres.2.2.1, ?_⟩
          intro x hx
          exact hres.2.2.2 x (List.mem_append.mpr (Or.inl hx))

theorem kahnLoop_fuel_stable (rels : List FkRel) (K : List String)
    (hchildK : ∀ r ∈ rels, r.child ∈ K) :
    ∀ (fuel : Nat) (q : List String) (d : List (String × Int)) (o : List String),
      KahnInv rels K q d o → K.length ≤ fuel + o.length →
      kahnLoop rels (fuel + 1) q d o = kahnLoop rels fuel q d o := by
  intro fuel
  induction fuel with
  | zero =>
      intro q d o inv hlen
      cases q with
      | nil => rfl
      | cons n q' =>
          exfalso
          have hsp := (List.Nodup.subperm inv.nodup inv.subK).length_le
          rw [List.length_append, List.length_cons] at hsp
          omega
  | succ fuel ih =>
      intro q d o inv hlen
      cases q with
      | nil => rfl
      | cons n q' =>
          have hstep := kahnInv_step rels K hchildK n q' d o inv
          have hb : K.length ≤ fuel + (o ++ [n]).length := by
            rw [List.length_append, List.length_singleton]
            omega
          exact ih _ _ _ hstep hb

theorem kahnInv_init (e : RelationalEngine)
    (hN : (e.tables.map Prod.fst).Nodup) :
    KahnInv e.relationships (dictKeys (initInDegree e.tables e.relationships))
      (((initInDegree e.tables e.relationships).filter
        (fun p => decide (p.2 = 0))).map Prod.fst)
      (initInDegree e.tables e.relationships) [] := by
  have hknd := initInDegree_keys_nodup e.tables e.relationships hN
  have hq0sub : List.Sublist
      (((initInDegree e.tables e.relationships).filter
        (fun p => decide (p.2 = 0))).map Prod.fst)
      (dictKeys (initInDegree e.tables e.relationships)) :=
    (List.filter_sublist _).map Prod.fst
  refine ⟨?_, ?_, ?_, ?_, ?_⟩
  · simpa using hknd.sublist hq0sub
  · intro x hx
    simp only [List.nil_append] at hx
    exact hq0sub.subset hx
  · intro k
    rw [initInDegree_getD, inCount_nil_o]
    omega
  · intro c hc r hr hcr
    exfalso
    simp only [List.nil_append, List.mem_map, List.mem_filter] at hc
    obtain ⟨⟨k, v⟩, ⟨hmem, hv⟩, hk⟩ := hc
    simp only at hk
    subst hk
    have hget : dictGet? (initInDegree e.tables e.relationships) k = some v :=
      dictGet?_of_mem_nodup _ k v hmem hknd
    have hgd : dictGetD (initInDegree e.tables e.relationships) k 0 = v := by
      rw [dictGetD, hget]
      rfl
    rw [initInDegree_getD] at hgd
    have hv0 : v = 0 := by simpa using hv
    have hpos := totalIn_pos_of_mem e.relationships r k hr hcr
    omega
  · intro r _ hc
    simp at hc

theorem kahnRun_spec (e : RelationalEngine)
    (hN : (e.tables.map Prod.fst).Nodup) :
    (kahnRun e).Nodup ∧
    (∀ x ∈ kahnRun e, x ∈ dictKeys (initInDegree e.tables e.relationships)) ∧
    (∀ r ∈ e.relationships, r.child ∈ kahnRun e →
      r.parent ∈ (kahnRun e).take ((kahnRun e).indexOf r.child)) := by
  have h := kahnLoop_inv e.relationships
    (dictKeys (initInDegree e.tables e.relationships))
    (fun r hr => initInDegree_child_mem e.tables e.relationships r hr)
    (initInDegree e.tables e.relationships).length
    (((initInDegree e.tables e.relationships).filter
      (fun p => decide (p.2 = 0))).map Prod.fst)
    (initInDegree e.tables e.relationships) [] (kahnInv_init e hN)
  exact ⟨h.1, h.2.1, h.2.2.1⟩

/-- Faithfulness of the fuel choice in `buildDag`: one more unit of fuel
does not change the computed order, i.e. the fueled loop has already reached
the state in which Python's unbounded `while queue:` loop terminates. -/
theorem kahnRun_fuel_faithful (e : RelationalEngine)
    (hN : (e.tables.map Prod.fst).Nodup) :
    kahnLoop e.relationships ((initInDegree e.tables e.relationships).length + 1)
      (((initInDegree e.tables e.relationships).filter
        (fun p => decide (p.2 = 0))).map Prod.fst)
      (initInDegree e.tables e.relationships) [] = kahnRun e := by
  have hKlen : (dictKeys (initInDegree e.tables e.relationships)).length =
      (initInDegree e.tables e.relationships).length := by
    rw [dictKeys, List.length_map]
  exact kahnLoop_fuel_stable e.relationships
    (dictKeys (initInDegree e.tables e.relationships))
    (fun r hr => initInDegree_child_mem e.tables e.relationships r hr)
    (initInDegree e.tables e.relationships).length _ _ []
    (kahnInv_init e hN) (by rw [hKlen]; omega)

theorem buildDag_ok_elim (e : RelationalEngine) (order : List String)
    (hOk : buildDag e = .ok order) :
    kahnRun e = order ∧ (kahnRun e).length = e.tables.length := by
  rw [buildDag] at hOk
  by_cases h : (kahnRun e).length = e.tables.length
  · rw [if_pos h] at hOk
    simp only [Except.ok.injEq] at hOk
    exact ⟨hOk, h⟩
  · rw [if_neg h] at hOk
    exact absurd hOk (by simp)

theorem keys_eq_tables_of_children_registered (e : RelationalEngine)
    (hChild : ∀ r ∈ e.relationships, r.child ∈ e.tables.map Prod.fst) :
    ∀ x, x ∈ dictKeys (initInDegree e.tables e.relationships) ↔
      x ∈ e.tables.map Prod.fst := by
  intro x
  constructor
  · intro hx
    have h1 := initInDegree_keys_sub e.tables e.relationships hx
    rcases List.mem_append.mp h1 with h2 | h2
    · exact h2
    · obtain ⟨r, hr, hc⟩ := List.mem_map.mp h2
      exact hc ▸ hChild r hr
  · intro hx
    exact initInDegree_keys_sup e.tables e.relationships hx

theorem order_contains_and_positions (e : RelationalEngine)
    (order : List String)
    (hN : (e.tables.map Prod.fst).Nodup)
    (hChild : ∀ r ∈ e.relationships, r.child ∈ e.tables.map Prod.fst)
    (hOk : buildDag e = .ok order) :
    order.Nodup ∧
    (∀ t ∈ e.tables.map Prod.fst, t ∈ order) ∧
    (∀ r ∈ e.relationships, r.parent ∈ order ∧ r.child ∈ order ∧
      order.indexOf r.parent < order.indexOf r.child) := by
  obtain ⟨hrun, hlen⟩ := buildDag_ok_elim e order hOk
  obtain ⟨hnd, hsubK, htopo⟩ := kahnRun_spec e hN
  rw [hrun] at hnd hsubK htopo hlen
  have hkeys := keys_eq_tables_of_children_registered e hChild
  have hsub : order ⊆ e.tables.map Prod.fst := fun x hx => (hkeys x).mp (hsubK x hx)
  have hsp := List.Nodup.subperm hnd hsub
  have hlen2 : (e.tables.map Prod.fst).length ≤ order.length := by
    rw [List.length_map]
    omega
  have hperm := List.Subperm.perm_of_length_le hsp hlen2
  have hmem : ∀ t ∈ e.tables.map Prod.fst, t ∈ order := by
    intro t ht
    exact hperm.mem_iff.mpr ht
  refine ⟨hnd, hmem, ?_⟩
  intro r hr
  have hcmem : r.child ∈ order := hmem r.child (hChild r hr)
  have htk := htopo r hr hcmem
  have hpmem : r.parent ∈ order := List.take_subset _ order htk
  exact ⟨hpmem, hcmem, indexOf_lt_of_mem_take order _ r.parent htk⟩

/-- C2 (amended): whenever every relationship's child table is registered in
the catalog and `build_dag` succeeds, the returned order contains every
registered table, and for every declared relationship the parent's position
strictly precedes the child's. -/
theorem c2_order_parents_before_children (e : RelationalEngine)
    (order : List String)
    (hN : (e.tables.map Prod.fst).Nodup)
    (hChild : ∀ r ∈ e.relationships, r.child ∈ e.tables.map Prod.fst)
    (hOk : buildDag e = .ok order) :
    (∀ t ∈ e.tables.map Prod.fst, t ∈ order) ∧
    (∀ r ∈ e.relationships, r.parent ∈ order ∧ r.child ∈ order ∧
      order.indexOf r.parent < order.indexOf r.child) :=
  ⟨(order_contains_and_positions e order hN hChild hOk).2.1,
    (order_contains_and_positions e order hN hChild hOk).2.2⟩

/-- Witness for C2's amended theorem on the two-table users/orders engine. -/
theorem c2_order_parents_before_children_witness :
    (∀ t ∈ (RelationalEngine.mk
        [("users", [("id", "Int64")]),
         ("orders", [("id", "Int64"), ("user_id", "Int64")])]
        [⟨"users", "id", "orders", "user_id"⟩]).tables.map Prod.fst,
      t ∈ ["users", "orders"]) ∧
    (∀ r ∈ (RelationalEngine.mk
        [("users", [("id", "Int64")]),
         ("orders", [("id", "Int64"), ("user_id", "Int64")])]
        [⟨"users", "id", "orders", "user_id"⟩]).relationships,
      r.parent ∈ ["users", "orders"] ∧ r.child ∈ ["users", "orders"] ∧
      (["users", "orders"] : List String).indexOf r.parent <
        (["users", "orders"] : List String).indexOf r.child) :=
  c2_order_parents_before_children
    (RelationalEngine.mk
      [("users", [("id", "Int64")]),
       ("orders", [("id", "Int64"), ("user_id", "Int64")])]
      [⟨"users", "id", "orders", "user_id"⟩])
    ["users", "orders"] (by decide) (by decide) rfl

/-! ### Cycles and the cycle error -/



theorem stuck_disjoint_order (rels : List FkRel) (order : List String)
    (htopo : ∀ r ∈ rels, r.child ∈ order →
      r.parent ∈ order.take (order.indexOf r.child))
    (xs : List String) (hs : StuckSet rels xs) : ∀ c ∈ xs, c ∉ order := by
  suffices h : ∀ k c, c ∈ xs → c ∈ order → order.indexOf c < k → False by
    intro c hc hmem
    exact h (order.indexOf c + 1) c hc hmem (Nat.lt_succ_self _)
  intro k
  induction k with
  | zero => intro c _ _ h; omega
  | succ k ih =>
      intro c hc hmem hlt
      obtain ⟨r, hr, hpxs, hcc⟩ := hs.2 c hc
      have htk := htopo r hr (by rw [hcc]; exact hmem)
      have hplt : order.indexOf r.parent < order.indexOf c := by
        have := indexOf_lt_of_mem_take order _ r.parent htk
        rwa [hcc] at this
      have hpmem : r.parent ∈ order := List.take_subset _ order htk
      exact ih r.parent hpxs hpmem (by omega)

/-- C7 (amended): when every relationship's child table is registered, a
self-referencing relationship makes `build_dag` fail with the
cyclic-dependency error, the error names that table, and the table is never
placed in the computed order. -/
theorem c7_self_loop_is_cycle (e : RelationalEngine) (r : FkRel)
    (hN : (e.tables.map Prod.fst).Nodup)
    (hChild : ∀ r' ∈ e.relationships, r'.child ∈ e.tables.map Prod.fst)
    (hr : r ∈ e.relationships) (hself : r.parent = r.child) :
    ∃ rem, buildDag e = .error rem ∧ r.child ∈ rem ∧ r.child ∉ kahnRun e := by
  obtain ⟨hnd, hsubK, htopo⟩ := kahnRun_spec e hN
  have hstuck : StuckSet e.relationships [r.child] := by
    refine ⟨by simp, ?_⟩
    intro c hc
    rw [List.mem_singleton] at hc
    subst hc
    exact ⟨r, hr, by rw [hself]; exact List.mem_singleton.mpr rfl, rfl⟩
  have hnot : r.child ∉ kahnRun e :=
    stuck_disjoint_order e.relationships (kahnRun e) htopo [r.child] hstuck
      r.child (List.mem_singleton.mpr rfl)
  have hkeys := keys_eq_tables_of_children_registered e hChild
  have hsub : kahnRun e ⊆ e.tables.map Prod.fst :=
    fun x hx => (hkeys x).mp (hsubK x hx)
  have hlenne : ¬ ((kahnRun e).length = e.tables.length) := by
    intro hlen
    have hsp := List.Nodup.subperm hnd hsub
    have hperm := List.Subperm.perm_of_length_le hsp (by rw [List.length_map]; omega)
    exact hnot (hperm.mem_iff.mpr (hChild r hr))
  refine ⟨(e.tables.map Prod.fst).filter (fun t => decide (¬ t ∈ kahnRun e)),
    ?_, ?_, hnot⟩
  · rw [buildDag, if_neg hlenne]
  · exact List.mem_filter.mpr ⟨hChild r hr, by simpa using hnot⟩

/-- Witness for C7's amended theorem on a one-table engine with a
self-loop. -/
theorem c7_self_loop_is_cycle_witness :
    ∃ rem, buildDag (RelationalEngine.mk [("S", [("x", "Int64")])]
        [⟨"S", "x", "S", "y"⟩]) = .error rem ∧
      (FkRel.mk "S" "x" "S" "y").child ∈ rem ∧
      (FkRel.mk "S" "x" "S" "y").child ∉
        kahnRun (RelationalEngine.mk [("S", [("x", "Int64")])]
          [⟨"S", "x", "S", "y"⟩]) :=
  c7_self_loop_is_cycle
    (RelationalEngine.mk [("S", [("x", "Int64")])] [⟨"S", "x", "S", "y"⟩])
    ⟨"S", "x", "S", "y"⟩ (by decide) (by decide) (by decide) rfl

/-- C3 (amended): when every table referenced by a relationship is
registered, a cycle in the relationship set makes `generate_all` fail with
the cyclic-dependency error before any table is generated; the error
carries exactly the registered tables not placed in the partial order (all
cycle members among them). -/
theorem c3_cycle_aborts_generation (e : RelationalEngine) (xs : List String)
    (counts : List (String × Nat)) (fake : Nat → Nat)
    (hN : (e.tables.map Prod.fst).Nodup)
    (hReg : ∀ r ∈ e.relationships, r.parent ∈ e.tables.map Prod.fst ∧
      r.child ∈ e.tables.map Prod.fst)
    (hstuck : StuckSet e.relationships xs) :
    ∃ rem, buildDag e = .error rem ∧
      generateAll e counts fake = .error (.cyclic rem) ∧
      (∀ x ∈ xs, x ∈ rem) ∧
      rem = (e.tables.map Prod.fst).filter (fun t => decide (¬ t ∈ kahnRun e)) := by
  obtain ⟨hnd, hsubK, htopo⟩ := kahnRun_spec e hN
  have hChild : ∀ r' ∈ e.relationships, r'.child ∈ e.tables.map Prod.fst :=
    fun r' hr' => (hReg r' hr').2
  have hxreg : ∀ x ∈ xs, x ∈ e.tables.map Prod.fst := by
    intro x hx
    obtain ⟨r, hr, _, hcc⟩ := hstuck.2 x hx
    exact hcc ▸ hChild r hr
  have hnot : ∀ x ∈ xs, x ∉ kahnRun e :=
    stuck_disjoint_order e.relationships (kahnRun e) htopo xs hstuck
  obtain ⟨c0, hc0⟩ := List.exists_mem_of_ne_nil xs hstuck.1
  have hkeys := keys_eq_tables_of_children_registered e hChild
  have hsub : kahnRun e ⊆ e.tables.map Prod.fst :=
    fun x hx => (hkeys x).mp (hsubK x hx)
  have hlenne : ¬ ((kahnRun e).length = e.tables.length) := by
    intro hlen
    have hsp := List.Nodup.subperm hnd hsub
    have hperm := List.Subperm.perm_of_length_le hsp (by rw [List.length_map]; omega)
    exact hnot c0 hc0 (hperm.mem_iff.mpr (hxreg c0 hc0))
  have hdag : buildDag e =
      .error ((e.tables.map Prod.fst).filter (fun t => decide (¬ t ∈ kahnRun e))) := by
    rw [buildDag, if_neg hlenne]
  refine ⟨_, hdag, ?_, ?_, rfl⟩
  · rw [generateAll, hdag]
  · intro x hx
    exact List.mem_filter.mpr ⟨hxreg x hx, by simpa using hnot x hx⟩

/-- Witness for C3's amended theorem on the two-table cycle `A -> B -> A`. -/
theorem c3_cycle_aborts_generation_witness :
    ∃ rem, buildDag (RelationalEngine.mk
        [("A", [("x", "Int64")]), ("B", [("x", "Int64")])]
        [⟨"A", "x", "B", "y"⟩, ⟨"B", "x", "A", "y"⟩]) = .error rem ∧
      generateAll (RelationalEngine.mk
        [("A", [("x", "Int64")]), ("B", [("x", "Int64")])]
        [⟨"A", "x", "B", "y"⟩, ⟨"B", "x", "A", "y"⟩])
        [("A", 3), ("B", 3)] (fun n => n) = .error (.cyclic rem) ∧
      (∀ x ∈ ["A", "B"], x ∈ rem) ∧
      rem = ((RelationalEngine.mk
        [("A", [("x", "Int64")]), ("B", [("x", "Int64")])]
        [⟨"A", "x", "B", "y"⟩, ⟨"B", "x", "A", "y"⟩]).tables.map Prod.fst).filter
        (fun t => decide (¬ t ∈ kahnRun (RelationalEngine.mk
          [("A", [("x", "Int64")]), ("B", [("x", "Int64")])]
          [⟨"A", "x", "B", "y"⟩, ⟨"B", "x", "A", "y"⟩]))) :=
  c3_cycle_aborts_generation
    (RelationalEngine.mk
      [("A", [("x", "Int64")]), ("B", [("x", "Int64")])]
      [⟨"A", "x", "B", "y"⟩, ⟨"B", "x", "A", "y"⟩])
    ["A", "B"] [("A", 3), ("B", 3)] (fun n => n)
    (by decide) (by decide) ⟨by decide, by decide⟩

/-! ### Helpers for the generation loop -/

theorem indexOf_append_right (o1 rest : List String) (c : String) (h : c ∉ o1) :
    (o1 ++ rest).indexOf c = o1.length + rest.indexOf c := by
  induction o1 with
  | nil => simp
  | cons x o' ih =>
      have hx : ¬ (x = c) := fun he => h (by rw [he]; exact List.mem_cons_self c o')
      simp only [List.cons_append, List.indexOf_cons]
      have hxb : ¬ (x == c) = true := by simpa using hx
      simp only [hxb, cond_false, List.length_cons,
        ih (fun hm => h (List.mem_cons_of_mem x hm))]
      omega

theorem dictGet?_mem {κ α : Type} [DecidableEq κ]
    (m : List (κ × α)) (k : κ) (v : α) (h : dictGet? m k = some v) : (k, v) ∈ m := by
  induction m with
  | nil => simp [dictGet?] at h
  | cons p rest ih =>
      obtain ⟨k1, v1⟩ := p
      by_cases hk : k1 = k
      · subst hk
        have h' : v1 = v := by simpa [dictGet?] using h
        subst h'
        exact List.mem_cons_self _ _
      · simp only [dictGet?, if_neg hk] at h
        exact List.mem_cons_of_mem _ (ih h)

theorem exists_get_of_mem_keys {κ α : Type} [DecidableEq κ]
    (m : List (κ × α)) (k : κ) (h : k ∈ dictKeys m) : ∃ v, dictGet? m k = some v := by
  induction m with
  | nil => simp [dictKeys] at h
  | cons p rest ih =>
      obtain ⟨k1, v1⟩ := p
      by_cases hk : k1 = k
      · subst hk
        exact ⟨v1, by simp [dictGet?]⟩
      · simp only [dictKeys, List.map_cons, List.mem_cons] at h
        rcases h with he | he
        · exact absurd he.symm hk
        · simpa [dictGet?, hk] using ih he

theorem mem_dictKeys_of_pair {κ α : Type} (m : List (κ × α)) (k : κ) (v : α)
    (h : (k, v) ∈ m) : k ∈ dictKeys m :=
  List.mem_map.mpr ⟨(k, v), h, rfl⟩

theorem colValues_cons (row : Row) (rows : List Row) (pcol : String) :
    colValues (row :: rows) pcol =
      (match dictGet? row pcol with
       | some v => v :: colValues rows pcol
       | none => colValues rows pcol) := by
  rcases h : dictGet? row pcol with _ | v <;> simp [colValues, List.filterMap_cons, h]

theorem lookup_some_of_mem_row_keys (row : Row) (col : String)
    (h : col ∈ row.map Prod.fst) : ∃ v, dictGet? row col = some v := by
  induction row with
  | nil => simp at h
  | cons p rest ih =>
      obtain ⟨c1, v1⟩ := p
      by_cases hc : c1 = col
      · exact ⟨v1, by simp [dictGet?, hc]⟩
      · simp only [List.map_cons, List.mem_cons] at h
        rcases h with he | he
        · exact absurd he.symm hc
        · simpa [dictGet?, hc] using ih he

theorem generateAllLoop_cons (rels : List FkRel) (tables : List (String × Schema))
    (counts : List (String × Nat)) (fake : Nat → Nat) (t : String)
    (rest : List String) (pools : Pools) (results : List (String × DF))
    (ctr : Nat) (schema : Schema) (hs : dictGet? tables t = some schema) :
    generateAllLoop rels tables counts fake (t :: rest) pools results ctr =
      generateAllLoop rels tables counts fake rest
        (publishPools rels t
          (genTable rels t schema pools fake (dictGetD counts t 100) ctr).1 pools)
        (results ++ [(t, (genTable rels t schema pools fake (dictGetD counts t 100) ctr).1)])
        (genTable rels t schema pools fake (dictGetD counts t 100) ctr).2 := by
  rw [generateAllLoop, hs]

theorem uniqueList_ne_nil (l : List Value) (h : l ≠ []) : uniqueList l ≠ [] := by
  obtain ⟨x, hx⟩ := List.exists_mem_of_ne_nil l h
  intro he
  have := (mem_uniqueList l x).mpr hx
  rw [he] at this
  simp at this

theorem loop_c1 (rels : List FkRel) (tables : List (String × Schema))
    (counts : List (String × Nat)) (fake : Nat → Nat) (r : FkRel)
    (hr : r ∈ rels)
    (hLast : dictGet? (fkSources rels r.child) r.ccol = some (r.parent, r.pcol))
    (ps : Schema) (hps : dictGet? tables r.parent = some ps)
    (hpcol : r.pcol ∈ ps.map Prod.fst)
    (hcount : 1 ≤ dictGetD counts r.parent 100) :
    ∀ (rest : List String) (pools : Pools) (results : List (String × DF)) (ctr : Nat),
      rest.Nodup →
      (((∃ s1 s2, rest = s1 ++ r.parent :: s2 ∧ r.child ∈ s2) ∧
        r.child ∉ dictKeys results ∧
        dictGet? pools (r.parent, r.pcol) = none) ∨
      (∃ dfp, (r.parent, dfp) ∈ results ∧
        dictGet? pools (r.parent, r.pcol) = some (uniqueList (colValues dfp r.pcol)) ∧
        colValues dfp r.pcol ≠ [] ∧ r.parent ∉ rest ∧
        (∀ dfc, (r.child, dfc) ∈ results → ∀ row ∈ dfc, ∀ v,
          dictGet? row r.ccol = some v →
          ∃ dfp', (r.parent, dfp') ∈ results ∧
            v ∈ uniqueList (colValues dfp' r.pcol)))) →
      ∀ final,
        generateAllLoop rels tables counts fake rest pools results ctr = .ok final →
        ∀ dfc, (r.child, dfc) ∈ final → ∀ row ∈ dfc, ∀ v,
          dictGet? row r.ccol = some v →
          ∃ dfp, (r.parent, dfp) ∈ final ∧ v ∈ uniqueList (colValues dfp r.pcol) := by
  intro rest
  induction rest with
  | nil =>
      intro pools results ctr _ hinv final hfinal
      have hfr : results = final := by
        simpa [generateAllLoop] using hfinal
      subst hfr
      rcases hinv with ⟨⟨s1, s2, hsplit, _⟩, _, _⟩ | ⟨dfp, _, _, _, _, hPROP⟩
      · exact absurd hsplit (by cases s1 <;> simp)
      · exact hPROP
  | cons t rest' ih =>
      intro pools results ctr hnd hinv final hfinal
      have hndr : rest'.Nodup := (List.nodup_cons.mp hnd).2
      have htnotin : t ∉ rest' := (List.nodup_cons.mp hnd).1
      rcases hts : dictGet? tables t with _ | schema
      · rw [generateAllLoop, hts] at hfinal
        exact absurd hfinal (by simp)
      · rw [generateAllLoop_cons rels tables counts fake t rest' pools results ctr
          schema hts] at hfinal
        rcases hinv with ⟨⟨s1, s2, hsplit, hcs2⟩, hcnotin, hpoolnone⟩ | hB
        · cases s1 with
          | nil =>
              simp only [List.nil_append] at hsplit
              have htp : t = r.parent := (List.cons.injEq _ _ _ _).mp hsplit |>.1
              have hrest : rest' = s2 := (List.cons.injEq _ _ _ _).mp hsplit |>.2
              subst htp
              have hschema : schema = ps := by
                rw [hts] at hps
                exact (Option.some.injEq _ _).mp hps.symm ▸ rfl
              subst hschema
              have hlen := genTable_length rels r.parent schema pools fake
                (dictGetD counts r.parent 100) ctr
              have hcols := genTable_columns rels r.parent schema pools fake
                (dictGetD counts r.parent 100) ctr hcount
              rcases hdf : (genTable rels r.parent schema pools fake
                  (dictGetD counts r.parent 100) ctr).1 with _ | ⟨row, rows⟩
              · rw [hdf] at hlen
                simp at hlen
                omega
              · have hrowkeys : row.map Prod.fst = schema.map Prod.fst := by
                  rw [hdf] at hcols
                  exact hcols
                obtain ⟨v0, hv0⟩ := lookup_some_of_mem_row_keys row r.pcol
                  (by rw [hrowkeys]; exact hpcol)
                have hcolne : colValues (row :: rows) r.pcol ≠ [] := by
                  rw [colValues_cons, hv0]
                  simp
                have hpub : dictGet? (publishPools rels r.parent (row :: rows) pools)
                    (r.parent, r.pcol) =
                    some (uniqueList (colValues (row :: rows) r.pcol)) := by
                  refine publishPools_hit rels r.parent (row :: rows) pools r hr rfl ?_
                  show r.pcol ∈ dfColumns (row :: rows)
                  show r.pcol ∈ row.map Prod.fst
                  rw [hrowkeys]
                  exact hpcol
                rw [hdf] at hfinal
                refine ih _ _ _ hndr (Or.inr ⟨row :: rows, ?_, hpub, hcolne, ?_, ?_⟩)
                  final hfinal
                · exact List.mem_append.mpr (Or.inr (List.mem_singleton.mpr rfl))
                · exact htnotin
                · intro dfc hdfc
                  exfalso
                  rcases List.mem_append.mp hdfc with hm | hm
                  · exact hcnotin (mem_dictKeys_of_pair results r.child dfc hm)
                  · rw [List.mem_singleton] at hm
                    have hcp : r.child = r.parent := congrArg Prod.fst hm
                    have hcin : r.child ∈ rest' := hrest ▸ hcs2
                    rw [hcp] at hcin
                    exact htnotin hcin
          | cons t0 s1' =>
              have ht0 : t = t0 ∧ rest' = s1' ++ r.parent :: s2 := by
                rw [List.cons_append] at hsplit
                exact ⟨(List.cons.injEq _ _ _ _).mp hsplit |>.1,
                  (List.cons.injEq _ _ _ _).mp hsplit |>.2⟩
              have hrest : rest' = s1' ++ r.parent :: s2 := ht0.2
              have hpin : r.parent ∈ rest' := by
                rw [hrest]
                exact List.mem_append.mpr (Or.inr (List.mem_cons_self _ _))
              have hcin : r.child ∈ rest' := by
                rw [hrest]
                exact List.mem_append.mpr (Or.inr (List.mem_cons_of_mem _ hcs2))
              have htnp : ¬ ((r.parent, r.pcol).1 = t) := by
                intro he
                rw [← he] at htnotin
                exact htnotin hpin
              have htnc : r.child ≠ t := by
                intro he
                rw [← he] at htnotin
                exact htnotin hcin
              refine ih _ _ _ hndr (Or.inl ⟨⟨s1', s2, hrest, hcs2⟩, ?_, ?_⟩)
                final hfinal
              · intro hmem
                have : dictKeys (results ++
                    [(t, (genTable rels t schema pools fake
                      (dictGetD counts t 100) ctr).1)]) =
                    dictKeys results ++ [t] := by
                  simp [dictKeys]
                rw [this] at hmem
                rcases List.mem_append.mp hmem with hm | hm
                · exact hcnotin hm
                · exact htnc (List.mem_singleton.mp hm)
              · rw [publishPools_ne_table t _ (r.parent, r.pcol) htnp]
                exact hpoolnone
        · obtain ⟨dfp, hdfpmem, hpool, hcolne, hpnotin, hPROP⟩ := hB
          have htnp : ¬ ((r.parent, r.pcol).1 = t) := by
            intro he
            rw [← he] at hpnotin
            exact hpnotin (List.mem_cons_self _ _)
          have hpnotin' : r.parent ∉ rest' :=
            fun hm => hpnotin (List.mem_cons_of_mem t hm)
          have hpool' : dictGet? (publishPools rels t
              (genTable rels t schema pools fake (dictGetD counts t 100) ctr).1 pools)
              (r.parent, r.pcol) = some (uniqueList (colValues dfp r.pcol)) := by
            rw [publishPools_ne_table t _ (r.parent, r.pcol) htnp]
            exact hpool
          refine ih _ _ _ hndr (Or.inr ⟨dfp, List.mem_append.mpr (Or.inl hdfpmem),
            hpool', hcolne, hpnotin', ?_⟩) final hfinal
          intro dfc hdfc row hrow v hv
          rcases List.mem_append.mp hdfc with hm | hm
          · obtain ⟨dfp', hdfp', hvmem⟩ := hPROP dfc hm row hrow v hv
            exact ⟨dfp', List.mem_append.mpr (Or.inl hdfp'), hvmem⟩
          · rw [List.mem_singleton] at hm
            have hct : r.child = t := congrArg Prod.fst hm
            have hdfc2 : dfc = (genTable rels t schema pools fake
                (dictGetD counts t 100) ctr).1 := congrArg Prod.snd hm
            refine ⟨dfp, List.mem_append.mpr (Or.inl hdfpmem), ?_⟩
            refine genTable_fk_mem rels t schema pools fake r.ccol
              (r.parent, r.pcol) (uniqueList (colValues dfp r.pcol)) ?_ hpool
              (uniqueList_ne_nil _ hcolne) (dictGetD counts t 100) ctr row
              (hdfc2 ▸ hrow) v hv
            rw [← hct]
            exact hLast

/-- C1 counterexample: tables `P`, `Q`, `T` with two relationships on the
same child column `T.fk` — `(P, a, T, fk)` declared first, `(Q, b, T, fk)`
second.  The graph is acyclic, every requested count is 1, and `P` generates
one row, yet `T`'s `fk` value is drawn from `Q`'s pool and is not a member
of the distinct values generated for `P.a`, so the claim fails as stated
for the declared relationship `(P, a, T, fk)`. -/
theorem c1_cex_duplicate_child_column :
    generateAll (RelationalEngine.mk
        [("P", [("a", "Int64")]), ("Q", [("b", "Int64")]), ("T", [("fk", "Int64")])]
        [⟨"P", "a", "T", "fk"⟩, ⟨"Q", "b", "T", "fk"⟩])
        [("P", 1), ("Q", 1), ("T", 1)] (fun n => n) =
      .ok [("P", [[("a", Value.vInt 0)]]), ("Q", [[("b", Value.vInt 1)]]),
        ("T", [[("fk", Value.vInt 1)]])] ∧
    Value.vInt 1 ∉ uniqueList (colValues [[("a", Value.vInt 0)]] "a") :=
  ⟨rfl, by decide⟩

/-- C1 (amended): round-trip referential integrity holds for every
relationship that is the effective (last-declared) source of its child FK
column, provided every relationship's child table is registered, the
relationship's parent column exists in the parent's schema, and every
requested row count is ≥ 1: whenever `generate_all` succeeds, every child
row's FK value is a member of the distinct values generated for the
referenced parent column. -/
theorem c1_referential_integrity (e : RelationalEngine) (r : FkRel)
    (counts : List (String × Nat)) (fake : Nat → Nat)
    (results : List (String × DF))
    (hN : (e.tables.map Prod.fst).Nodup)
    (hChild : ∀ r' ∈ e.relationships, r'.child ∈ e.tables.map Prod.fst)
    (hr : r ∈ e.relationships)
    (hLast : dictGet? (fkSources e.relationships r.child) r.ccol =
      some (r.parent, r.pcol))
    (ps : Schema) (hps : dictGet? e.tables r.parent = some ps)
    (hpcol : r.pcol ∈ ps.map Prod.fst)
    (hcounts : ∀ x ∈ counts, 1 ≤ x.2)
    (hok : generateAll e counts fake = .ok results) :
    ∀ dfc, (r.child, dfc) ∈ results → ∀ row ∈ dfc, ∀ v,
      dictGet? row r.ccol = some v →
      ∃ dfp, (r.parent, dfp) ∈ results ∧ v ∈ uniqueList (colValues dfp r.pcol) := by
  rcases hdag : buildDag e with rem | order
  · rw [generateAll, hdag] at hok
    exact absurd hok (by simp)
  · rw [generateAll, hdag] at hok
    obtain ⟨hnd, _, hpos⟩ := order_contains_and_positions e order hN hChild hdag
    obtain ⟨hpmem, hcmem, hlt⟩ := hpos r hr
    obtain ⟨o1, o2, hsplit⟩ := List.append_of_mem hpmem
    have hpno1 : r.parent ∉ o1 := by
      rw [hsplit, List.nodup_append] at hnd
      exact fun hm => hnd.2.2 hm (List.mem_cons_self _ _)
    have hcnep : r.child ≠ r.parent := by
      intro he
      rw [he] at hlt
      omega
    have hcno1 : r.child ∉ o1 := by
      intro hm
      have h1 : order.indexOf r.child < o1.length := by
        rw [hsplit, indexOf_append_left_mem o1 _ r.child hm]
        exact List.indexOf_lt_length.mpr hm
      have h2 : order.indexOf r.parent = o1.length := by
        rw [hsplit, indexOf_append_right o1 _ r.parent hpno1]
        simp [List.indexOf_cons]
      omega
    have hco2 : r.child ∈ o2 := by
      have := hcmem
      rw [hsplit] at this
      rcases List.mem_append.mp this with hm | hm
      · exact absurd hm hcno1
      · rcases List.mem_cons.mp hm with hm2 | hm2
        · exact absurd hm2 hcnep
        · exact hm2
    have hcount : 1 ≤ dictGetD counts r.parent 100 := by
      rcases hcget : dictGet? counts r.parent with _ | n
      · rw [dictGetD, hcget]
        simp
      · rw [dictGetD, hcget]
        exact hcounts (r.parent, n) (dictGet?_mem counts r.parent n hcget)
    exact loop_c1 e.relationships e.tables counts fake r hr hLast ps hps hpcol
      hcount order [] [] 0 hnd
      (Or.inl ⟨⟨o1, o2, hsplit, hco2⟩, by simp [dictKeys], rfl⟩) results hok

/-- Witness for C1's amended theorem on the users/orders scenario,
instantiated at a concrete child row and FK value. -/
theorem c1_referential_integrity_witness :
    ∃ dfp, ("users", dfp) ∈
        [("users", [[("id", Value.vInt 0)]]),
         ("orders", [[("id", Value.vInt 1), ("user_id", Value.vInt 0)],
                     [("id", Value.vInt 3), ("user_id", Value.vInt 0)]])] ∧
      Value.vInt 0 ∈ uniqueList (colValues dfp "id") :=
  c1_referential_integrity
    (RelationalEngine.mk
      [("users", [("id", "Int64")]),
       ("orders", [("id", "Int64"), ("user_id", "Int64")])]
      [⟨"users", "id", "orders", "user_id"⟩])
    ⟨"users", "id", "orders", "user_id"⟩
    [("users", 1), ("orders", 2)] (fun n => n)
    [("users", [[("id", Value.vInt 0)]]),
     ("orders", [[("id", Value.vInt 1), ("user_id", Value.vInt 0)],
                 [("id", Value.vInt 3), ("user_id", Value.vInt 0)]])]
    (by decide) (by decide) (by decide) (by decide)
    [("id", "Int64")] rfl (by decide) (by decide) (by rfl)
    [[("id", Value.vInt 1), ("user_id", Value.vInt 0)],
     [("id", Value.vInt 3), ("user_id", Value.vInt 0)]]
    (by decide)
    [("id", Value.vInt 1), ("user_id", Value.vInt 0)]
    (by decide) (Value.vInt 0) (by decide)

/-! ### C6 — empty parent pool falls back to the synthesizer -/

theorem genCell_fallback (rels : List FkRel) (t : String) (pools : Pools)
    (fake : Nat → Nat) (ctr : Nat) (col dtype : String) (src : String × String)
    (hsrc : dictGet? (fkSources rels t) col = some src)
    (hpool : dictGetD pools src [] = []) :
    genCell rels t pools fake ctr col dtype = generateValue fake ctr dtype := by
  simp [genCell, hsrc, hpool]

theorem genRow_fallback (rels : List FkRel) (t : String) (pools : Pools)
    (fake : Nat → Nat) (col : String) (src : String × String)
    (hsrc : dictGet? (fkSources rels t) col = some src)
    (hpool : dictGetD pools src [] = []) :
    ∀ (schema : Schema) (ctr : Nat) (v : Value) (dt : String),
      dictGet? (genRow rels t pools fake ctr schema).1 col = some v →
      dictGet? schema col = some dt → ∃ n, v = generateValue fake n dt := by
  intro schema
  induction schema with
  | nil => intro ctr v dt h; simp [genRow, dictGet?] at h
  | cons p rest ih =>
      intro ctr v dt h hdt
      obtain ⟨c0, dt0⟩ := p
      by_cases hc : c0 = col
      · subst hc
        have h' : genCell rels t pools fake ctr c0 dt0 = v := by
          simpa [genRow, dictGet?] using h
        have hdt0 : dt0 = dt := by
          simpa [dictGet?] using hdt
        subst hdt0
        refine ⟨ctr, ?_⟩
        rw [← h', genCell_fallback rels t pools fake ctr c0 dt0 src hsrc hpool]
      · simp only [genRow, dictGet?, if_neg hc] at h hdt
        exact ih (ctr + 1) v dt h hdt

theorem genTable_fallback (rels : List FkRel) (t : String) (schema : Schema)
    (pools : Pools) (fake : Nat → Nat) (col : String) (src : String × String)
    (hsrc : dictGet? (fkSources rels t) col = some src)
    (hpool : dictGetD pools src [] = []) :
    ∀ (count ctr : Nat) (row : Row),
      row ∈ (genTable rels t schema pools fake count ctr).1 →
      ∀ (v : Value) (dt : String), dictGet? row col = some v →
        dictGet? schema col = some dt → ∃ n, v = generateValue fake n dt := by
  intro count
  induction count with
  | zero => intro ctr row hrow; simp [genTable] at hrow
  | succ k ih =>
      intro ctr row hrow v dt hv hdt
      simp only [genTable, List.mem_cons] at hrow
      rcases hrow with h | h
      · subst h
        exact genRow_fallback rels t pools fake col src hsrc hpool schema ctr v dt hv hdt
      · exact ih _ row h v dt hv hdt

theorem publishPools_empty_df (rels : List FkRel) (t : String) (pools : Pools) :
    publishPools rels t [] pools = pools := by
  induction rels generalizing pools with
  | nil => rfl
  | cons r rest ih =>
      have hfold :
          publishPools (r :: rest) t [] pools =
          publishPools rest t []
            (if r.parent = t ∧ r.pcol ∈ dfColumns []
             then dictSet pools (t, r.pcol) (uniqueList (colValues [] r.pcol)) else pools) := by
        rw [publishPools, List.foldl_cons]
        rfl
      rw [hfold, if_neg (by simp [dfColumns]), ih]

theorem loop_c6 (rels : List FkRel) (tables : List (String × Schema))
    (counts : List (String × Nat)) (fake : Nat → Nat) (r : FkRel)
    (hLast : dictGet? (fkSources rels r.child) r.ccol = some (r.parent, r.pcol))
    (cs : Schema) (hcs : dictGet? tables r.child = some cs)
    (dt : String) (hdt : dictGet? cs r.ccol = some dt)
    (hp0 : dictGetD counts r.parent 100 = 0) :
    ∀ (rest : List String) (pools : Pools) (results : List (String × DF)) (ctr : Nat),
      (∀ t ∈ rest, ∃ s, dictGet? tables t = some s) →
      dictGet? pools (r.parent, r.pcol) = none →
      (∀ dfc, (r.child, dfc) ∈ results → ∀ row ∈ dfc, ∀ v,
        dictGet? row r.ccol = some v → ∃ n, v = generateValue fake n dt) →
      ∃ final, generateAllLoop rels tables counts fake rest pools results ctr = .ok final ∧
        ∀ dfc, (r.child, dfc) ∈ final → ∀ row ∈ dfc, ∀ v,
          dictGet? row r.ccol = some v → ∃ n, v = generateValue fake n dt := by
  intro rest
  induction rest with
  | nil =>
      intro pools results ctr _ _ hPROP
      exact ⟨results, by simp [generateAllLoop], hPROP⟩
  | cons t rest' ih =>
      intro pools results ctr hreg hpnone hPROP
      obtain ⟨schema, hts⟩ := hreg t (List.mem_cons_self t rest')
      rw [generateAllLoop_cons rels tables counts fake t rest' pools results ctr
        schema hts]
      have hreg' : ∀ t' ∈ rest', ∃ s, dictGet? tables t' = some s :=
        fun t' ht' => hreg t' (List.mem_cons_of_mem t ht')
      have hpnone' : dictGet? (publishPools rels t
          (genTable rels t schema pools fake (dictGetD counts t 100) ctr).1 pools)
          (r.parent, r.pcol) = none := by
        by_cases htp : t = r.parent
        · have h0 : dictGetD counts t 100 = 0 := by rw [htp]; exact hp0
          rw [h0, show (genTable rels t schema pools fake 0 ctr).1 = [] from rfl,
            publishPools_empty_df]
          exact hpnone
        · rw [publishPools_ne_table t _ (r.parent, r.pcol)
            (fun he => htp he.symm)]
          exact hpnone
      have hPROP' : ∀ dfc, (r.child, dfc) ∈ results ++
          [(t, (genTable rels t schema pools fake (dictGetD counts t 100) ctr).1)] →
          ∀ row ∈ dfc, ∀ v, dictGet? row r.ccol = some v →
            ∃ n, v = generateValue fake n dt := by
        intro dfc hdfc row hrow v hv
        rcases List.mem_append.mp hdfc with hm | hm
        · exact hPROP dfc hm row hrow v hv
        · rw [List.mem_singleton] at hm
          have hct : r.child = t := congrArg Prod.fst hm
          have hdfc2 : dfc = (genTable rels t schema pools fake
              (dictGetD counts t 100) ctr).1 := congrArg Prod.snd hm
          have hschema : schema = cs := by
            rw [← hct] at hts
            rw [hts] at hcs
            exact (Option.some.injEq _ _).mp hcs
          have hsrc : dictGet? (fkSources rels t) r.ccol =
              some (r.parent, r.pcol) := by
            rw [← hct]
            exact hLast
          have hpool0 : dictGetD pools (r.parent, r.pcol) [] = [] := by
            rw [dictGetD, hpnone]
            rfl
          refine genTable_fallback rels t schema pools fake r.ccol
            (r.parent, r.pcol) hsrc hpool0 (dictGetD counts t 100) ctr row
            (hdfc2 ▸ hrow) v dt hv ?_
          rw [hschema]
          exact hdt
      exact ih _ _ _ hreg' hpnone' hPROP'

/-- C6 counterexample: the §8 scenario — `parents` requested with count 0,
`children` with count 3.  `generate_all` returns only the two data frames:
the three `parent_id` values are synthesizer fallbacks, and nothing in the
returned value reports the fallback occurrences (no diagnostic, no count),
contradicting the claim that each occurrence is observable by the caller. -/
theorem c6_cex_fallback_not_reported :
    generateAll (RelationalEngine.mk
        [("parents", [("id", "Int64")]),
         ("children", [("id", "Int64"), ("parent_id", "Int64")])]
        [⟨"parents", "id", "children", "parent_id"⟩])
        [("parents", 0), ("children", 3)] (fun n => n) =
      .ok [("parents", []),
        ("children",
          [[("id", Value.vInt 0), ("parent_id", Value.vInt 1)],
           [("id", Value.vInt 2), ("parent_id", Value.vInt 3)],
           [("id", Value.vInt 4), ("parent_id", Value.vInt 5)]])] :=
  rfl

/-- C6 (amended): with a parent requested at count 0, generation does not
abort: whenever the order resolves and every relationship child is
registered, `generate_all` succeeds, and every child row's FK value for the
affected (last-declared) relationship is produced by the per-type value
synthesizer fallback; however no diagnostic is reported — the silent
integrity relaxation of §9. -/
theorem c6_zero_parent_fallback (e : RelationalEngine) (r : FkRel)
    (counts : List (String × Nat)) (fake : Nat → Nat) (order : List String)
    (hN : (e.tables.map Prod.fst).Nodup)
    (hChild : ∀ r' ∈ e.relationships, r'.child ∈ e.tables.map Prod.fst)
    (hLast : dictGet? (fkSources e.relationships r.child) r.ccol =
      some (r.parent, r.pcol))
    (hdag : buildDag e = .ok order)
    (hp0 : dictGetD counts r.parent 100 = 0)
    (cs : Schema) (hcs : dictGet? e.tables r.child = some cs)
    (dt : String) (hdt : dictGet? cs r.ccol = some dt) :
    ∃ results, generateAll e counts fake = .ok results ∧
      ∀ dfc, (r.child, dfc) ∈ results → ∀ row ∈ dfc, ∀ v,
        dictGet? row r.ccol = some v → ∃ n, v = generateValue fake n dt := by
  obtain ⟨hrun, _⟩ := buildDag_ok_elim e order hdag
  obtain ⟨_, hsubK, _⟩ := kahnRun_spec e hN
  rw [hrun] at hsubK
  have hkeys := keys_eq_tables_of_children_registered e hChild
  have hreg : ∀ t ∈ order, ∃ s, dictGet? e.tables t = some s := by
    intro t ht
    exact exists_get_of_mem_keys e.tables t ((hkeys t).mp (hsubK t ht))
  obtain ⟨final, hloop, hprop⟩ := loop_c6 e.relationships e.tables counts fake r
    hLast cs hcs dt hdt hp0 order [] [] 0 hreg rfl (by simp)
  refine ⟨final, ?_, hprop⟩
  rw [generateAll, hdag]
  exact hloop

/-- Witness for C6's amended theorem on the parents/children scenario. -/
theorem c6_zero_parent_fallback_witness :
    ∃ results, generateAll (RelationalEngine.mk
        [("parents", [("id", "Int64")]),
         ("children", [("id", "Int64"), ("parent_id", "Int64")])]
        [⟨"parents", "id", "children", "parent_id"⟩])
        [("parents", 0), ("children", 3)] (fun n => n) = .ok results ∧
      ∀ dfc, ((FkRel.mk "parents" "id" "children" "parent_id").child, dfc) ∈ results →
        ∀ row ∈ dfc, ∀ v,
          dictGet? row (FkRel.mk "parents" "id" "children" "parent_id").ccol = some v →
          ∃ n, v = generateValue (fun n => n) n "Int64" :=
  c6_zero_parent_fallback
    (RelationalEngine.mk
      [("parents", [("id", "Int64")]),
       ("children", [("id", "Int64"), ("parent_id", "Int64")])]
      [⟨"parents", "id", "children", "parent_id"⟩])
    ⟨"parents", "id", "children", "parent_id"⟩
    [("parents", 0), ("children", 3)] (fun n => n) ["parents", "children"]
    (by decide) (by decide) (by decide) (by rfl) (by decide)
    [("id", "Int64"), ("parent_id", "Int64")] rfl "Int64" (by decide)
